import Mathlib

/-!
# telegraf-es-shard-stats

A shallow embedding of `telegraf-es-shard-stats.go`: the shard record, the
normalizer `normalizeFields` (with the part of Go's `regexp` package that the
relocation pattern needs) and the line-protocol encoder `genInfluxDBLineProto`.

Go strings are modelled by `String`; the inputs come out of `encoding/json`,
which yields valid UTF-8, so a Go string is its sequence of code points.
-/

set_option linter.dupNamespace false

namespace EsShardStats

/-! ## Data model -/

/-- Shard : struct containing shard data (all fields are strings, as in the source). -/
structure Shard where
  Index : String
  Shard : String
  PriRep : String
  State : String
  Docs : String
  Store : String
  IP : String
  Node : String
deriving DecidableEq

/-! ## Library functions used by the source -/

/-- Go `strings.Join(elems, sep)`: the first element, then for each further
element the separator followed by the element. -/
def stringsJoin (elems : List String) (sep : String) : String :=
  match elems with
  | [] => ""
  | e :: rest => rest.foldl (fun b s => b ++ sep ++ s) e

/-- Replacement of every occurrence of the character `old` by `new`. -/
def replaceChars (old : Char) (new : List Char) : List Char → List Char
  | [] => []
  | c :: cs =>
    if c = old then new ++ replaceChars old new cs else c :: replaceChars old new cs

/-- Go `strings.Replace(s, old, new, -1)` for a one-character `old`, the only
form the source calls: all occurrences are replaced. -/
def stringsReplace (s : String) (old : Char) (new : String) : String :=
  ⟨replaceChars old new.data s.data⟩

/-! ### The fragment of Go's `regexp` (RE2 syntax) that the pattern uses -/

/-- Perl class `\s` of RE2: `[\t\n\f\r ]`. -/
def isSpace (c : Char) : Bool :=
  c = '\t' || c = '\n' || c = '\x0c' || c = '\r' || c = ' '

/-- Perl class `\S` of RE2: every character outside `\s`. -/
def notSpace (c : Char) : Bool := !isSpace c

/-- RE2 `.` without the `s` flag: every character except the line feed. -/
def anyCharNotNL (c : Char) : Bool := !(c = '\n')

/-- Regular expressions: text anchors, a single character of a class, greedy
repetition of a class, concatenation and numbered capture groups. -/
inductive Regexp where
  | beginText : Regexp
  | endText : Regexp
  | cls (p : Char → Bool) : Regexp
  | star (p : Char → Bool) : Regexp
  | plus (p : Char → Bool) : Regexp
  | cat (a b : Regexp) : Regexp
  | capture (i : Nat) (a : Regexp) : Regexp

/-- The text between two positions, each given by the input that remains there. -/
def consumed (s s' : List Char) : List Char := s.take (s.length - s'.length)

/-- Greedy repetition of a class: the longest run is tried first, and one
character is given back each time the continuation fails. -/
def starLoop {α : Type} (p : Char → Bool) (k : List Char → Option α) :
    List Char → Option α
  | [] => k []
  | c :: s =>
    if p c then (starLoop p k s).orElse (fun _ => k (c :: s)) else k (c :: s)

/-- Backtracking matcher with leftmost-first preference. `text` is the whole
input, `s` the input that remains at the current position, `caps` the text of
the capture groups so far, and `k` what remains to be matched. -/
def Regexp.run (text : List Char) :
    Regexp → (List Char → List (List Char) → Option (List (List Char))) →
      List Char → List (List Char) → Option (List (List Char))
  | .beginText, k, s, caps => if s.length = text.length then k s caps else none
  | .endText, k, s, caps => if s = [] then k s caps else none
  | .cls p, k, s, caps =>
    match s with
    | [] => none
    | c :: s' => if p c then k s' caps else none
  | .star p, k, s, caps => starLoop p (fun s' => k s' caps) s
  | .plus p, k, s, caps =>
    match s with
    | [] => none
    | c :: s' => if p c then starLoop p (fun t => k t caps) s' else none
  | .cat a b, k, s, caps => a.run text (fun s' caps' => b.run text k s' caps') s caps
  | .capture i a, k, s, caps =>
    a.run text (fun s' caps' => k s' (caps'.set i (consumed s s'))) s caps

/-- Number of capture groups of an expression. -/
def Regexp.numSubexp : Regexp → Nat
  | .cat a b => a.numSubexp + b.numSubexp
  | .capture _ a => a.numSubexp + 1
  | _ => 0

/-- A match attempt that starts where `s` remains; group 0 is the whole match. -/
def Regexp.matchAt (re : Regexp) (text s : List Char) : Option (List (List Char)) :=
  re.run text (fun s' caps => some (caps.set 0 (consumed s s'))) s
    (List.replicate (re.numSubexp + 1) [])

/-- Leftmost match: the start positions are tried from left to right. -/
def Regexp.search (re : Regexp) (text : List Char) : List Char → Option (List (List Char))
  | [] => re.matchAt text []
  | c :: s => (re.matchAt text (c :: s)).orElse (fun _ => re.search text s)

/-- Go `(*Regexp).FindStringSubmatch`: `none` for Go's nil (no match), else the
text of the leftmost match followed by the text of each capture group. -/
def Regexp.FindStringSubmatch (re : Regexp) (s : String) : Option (List String) :=
  (re.search s.data s.data).map (fun caps => caps.map String.mk)

/-! ## The program -/

/-- The pattern compiled in `normalizeFields`: `^(\S+)\s+.*\s(\S+)$`. -/
def re : Regexp :=
  .cat .beginText
    (.cat (.capture 1 (.plus notSpace))
      (.cat (.plus isSpace)
        (.cat (.star anyCharNotNL)
          (.cat (.cls isSpace)
            (.cat (.capture 2 (.plus notSpace)) .endText)))))

/-- The shape of a text that `^(\S+)\s+.*\s(\S+)$` matches: a first token `A`,
a run `W` of whitespace, a rest `R` without line feed, one whitespace character
`w` and a last token `B`. -/
def RelocForm (text A B : List Char) : Prop :=
  ∃ W R w, text = A ++ (W ++ (R ++ w :: B))
    ∧ A ≠ [] ∧ (∀ c ∈ A, notSpace c = true)
    ∧ W ≠ [] ∧ (∀ c ∈ W, isSpace c = true)
    ∧ (∀ c ∈ R, anyCharNotNL c = true)
    ∧ isSpace w = true
    ∧ B ≠ [] ∧ (∀ c ∈ B, notSpace c = true)

/-- One iteration of the loop of `genInfluxDBLineProto`: the line of `shard` is
appended to `output`. -/
def genInfluxDBLineProtoStep (measurementName : String) (output : List String)
    (shard : Shard) : List String :=
  let values := ["shard_value=" ++ shard.Shard ++ "i"]
  let tags := [measurementName, "index=" ++ shard.Index, "shard=" ++ shard.Shard,
    "prirep=" ++ shard.PriRep, "state=" ++ shard.State]
  let tags := if shard.IP ≠ "" then tags ++ ["ip=" ++ shard.IP] else tags
  let tags := if shard.Node ≠ "" then tags ++ ["node=" ++ shard.Node] else tags
  let values := if shard.Docs ≠ "" then values ++ ["docs=" ++ shard.Docs ++ "i"] else values
  let values := if shard.Store ≠ "" then values ++ ["store=" ++ shard.Store ++ "i"] else values
  output ++ [stringsJoin tags "," ++ " " ++ stringsJoin values ","]

/-- Source function `genInfluxDBLineProto`: one line per shard, joined by line feeds. -/
def genInfluxDBLineProto (measurementName : String) (shards : List Shard) : String :=
  stringsJoin (shards.foldl (genInfluxDBLineProtoStep measurementName) []) "\n"

/-- One iteration of the loop of `normalizeFields`: a relocating shard whose
node does not match the pattern is skipped (`continue`); every other shard is
appended with its node rewritten. -/
def normalizeFieldsStep (normalizedShards : List Shard) (shard : Shard) : List Shard :=
  let s := shard
  if shard.State = "RELOCATING" then
    match re.FindStringSubmatch shard.Node with
    | some m =>
      let s := { s with Node := m.getD 1 "" ++ "->" ++ m.getD 2 "" }
      normalizedShards ++ [{ s with Node := stringsReplace s.Node ' ' "" }]
    | none => normalizedShards
  else
    normalizedShards ++ [{ s with Node := stringsReplace s.Node ' ' "" }]

/-- Source function `normalizeFields`. -/
def normalizeFields (shards : List Shard) : List Shard :=
  shards.foldl normalizeFieldsStep []

/-- The part of an HTTP response that `esQuery` reads: `resp.StatusCode` and
`resp.Status` (the status line, such as "404 Not Found"). -/
structure Response where
  StatusCode : Int
  Status : String
deriving DecidableEq

/-- Source function `esQuery`. The HTTP client is an input: `httpGet url timeout`
is what `request.Get(url).Timeout(...).End()` returns, the response, the body and
the error slice (`none` for Go's nil slice). An error is modelled by its message,
`none` being Go's nil error. -/
def esQuery (httpGet : String → Int → Response × String × Option (List String))
    (esURL : String) (timeout : Int) : String × Option String :=
  match httpGet esURL timeout with
  | (resp, body, errs) =>
    match errs with
    | some errs =>
      let errsStr := errs.foldl (fun errsStr e => errsStr ++ [e]) []
      ("", some (stringsJoin errsStr ", "))
    | none =>
      if resp.StatusCode ≠ 200 then ("", some ("HTTP response code: " ++ resp.Status))
      else (body, none)

/-- Source function `parseShards`. The decoder is an input: `unmarshal data` is
the value that `json.Unmarshal([]byte(data), &shards)` leaves in `shards`
(initially nil) together with the error it returns. -/
def parseShards (unmarshal : String → List Shard × Option String) (data : String) :
    List Shard × Option String :=
  match unmarshal data with
  | (shards, err) =>
    if err ≠ none then (shards, some "JSON parse failed") else (shards, none)

/-- Source function `genShardStats`. -/
def genShardStats (httpGet : String → Int → Response × String × Option (List String))
    (unmarshal : String → List Shard × Option String)
    (esURL : String) (timeout : Int) (measurementName : String) : String × Option String :=
  let url := esURL ++ "/_cat/shards?format=json&bytes=b"
  match esQuery httpGet url timeout with
  | (esData, err) =>
    if err ≠ none then ("", err)
    else
      match parseShards unmarshal esData with
      | (shards, err) =>
        if err ≠ none then ("", err)
        else (genInfluxDBLineProto measurementName (normalizeFields shards), none)

/-- A decoder outcome for the body `[{"index":"logs","shard":2}]`, as
`encoding/json` documents it for a value of the wrong type: the field is
skipped, the decoding is completed as best it can and the type error is
returned, so the slice holds the record decoded so far. Other bodies are left
undecoded by this stand-in. -/
def unmarshalTypeMismatch (data : String) : List Shard × Option String :=
  if data = "[\x7b\"index\":\"logs\",\"shard\":2\x7d]" then
    ([⟨"logs", "", "", "", "", "", "", ""⟩],
      some "json: cannot unmarshal number into Go struct field Shard.shard of type string")
  else ([], some "unexpected end of JSON input")

/-! ## The tokenizer of the design notes -/

/-- Splitting into whitespace-separated tokens; `cur` is the token being read. -/
def fieldsGo (cur : List Char) : List Char → List (List Char)
  | [] => if cur = [] then [] else [cur]
  | c :: cs =>
    if isSpace c then (if cur = [] then fieldsGo [] cs else cur :: fieldsGo [] cs)
    else fieldsGo (cur ++ [c]) cs

/-- The whitespace-separated tokens of a text. -/
def fields (text : List Char) : List (List Char) := fieldsGo [] text

/-- The first and the last token joined by an arrow. -/
def arrowOfTokens (toks : List (List Char)) : String :=
  String.mk (toks.headD []) ++ "->" ++ String.mk (toks.getLastD [])

/-- The relocation handling as the design notes word it, a tokenizer in place of
the pattern: a node of three or more whitespace-separated tokens becomes its
first and last token joined by an arrow, any other node is rejected. -/
def tokenizerRelocation (node : String) : Option String :=
  if 3 ≤ (fields node.data).length then some (arrowOfTokens (fields node.data)) else none

/-- The relocation branch of the loop of `normalizeFields` with the tokenizer in
place of the pattern: the record with its new node, or nothing. -/
def normalizeRelocatingByTokens (r : Shard) : List Shard :=
  match tokenizerRelocation r.Node with
  | some node => [{ r with Node := node }]
  | none => []

/-- The text begins with a non-whitespace character. -/
def beginsWithToken (text : List Char) : Bool :=
  match text with
  | [] => false
  | c :: _ => notSpace c

/-- The text ends with a non-whitespace character. -/
def endsWithToken (text : List Char) : Bool := beginsWithToken text.reverse

/-- The text between the first and the last token of a text that begins and ends
with a token: what is left once the whitespace-free run at the front and the
whitespace-free run at the back are taken away. -/
def betweenTokens (text : List Char) : List Char :=
  ((text.dropWhile notSpace).reverse.dropWhile notSpace).reverse

/-! ## The encoder -/

theorem stringsJoin_foldl_eq_go (sep : String) (rest : List String) (acc : String) :
    rest.foldl (fun b s => b ++ sep ++ s) acc = String.intercalate.go acc sep rest := by
  induction rest generalizing acc with
  | nil => rfl
  | cons a rest ih => simp [String.intercalate.go, ih]

theorem stringsJoin_eq_intercalate (elems : List String) (sep : String) :
    stringsJoin elems sep = sep.intercalate elems := by
  cases elems with
  | nil => rfl
  | cons e rest => simp [stringsJoin, String.intercalate, stringsJoin_foldl_eq_go]

/-- The literals of the line format, split where `strings.Join` puts the separator. -/
theorem lineLiterals :
    (",index=" : String) = "," ++ "index=" ∧ (",shard=" : String) = "," ++ "shard="
      ∧ (",prirep=" : String) = "," ++ "prirep=" ∧ (",state=" : String) = "," ++ "state="
      ∧ (",ip=" : String) = "," ++ "ip=" ∧ (",node=" : String) = "," ++ "node="
      ∧ (" shard_value=" : String) = " " ++ "shard_value="
      ∧ (",docs=" : String) = "," ++ "docs=" ∧ (",store=" : String) = "," ++ "store=" := by
  decide

theorem genInfluxDBLineProtoStep_append (m : String) (output : List String) (r : Shard) :
    genInfluxDBLineProtoStep m output r = output ++ [genInfluxDBLineProto m [r]] := by
  simp [genInfluxDBLineProto, genInfluxDBLineProtoStep, stringsJoin]

theorem genInfluxDBLineProto_foldl (m : String) (rs : List Shard) (output : List String) :
    rs.foldl (genInfluxDBLineProtoStep m) output
      = output ++ rs.map (fun r => genInfluxDBLineProto m [r]) := by
  induction rs generalizing output with
  | nil => simp
  | cons r rs ih => simp [ih, genInfluxDBLineProtoStep_append]

/-- C4: the encoding of a one-record sequence is the measurement name, the four
fixed tags, the tags `ip` and `node` when non-empty, a space, `shard_value`, and
the fields `docs` and `store` when non-empty, every value inserted verbatim. -/
theorem genInfluxDBLineProto_single (m : String) (r : Shard) :
    genInfluxDBLineProto m [r]
      = m ++ ",index=" ++ r.Index ++ ",shard=" ++ r.Shard ++ ",prirep=" ++ r.PriRep
          ++ ",state=" ++ r.State
          ++ (if r.IP = "" then "" else ",ip=" ++ r.IP)
          ++ (if r.Node = "" then "" else ",node=" ++ r.Node)
          ++ " shard_value=" ++ r.Shard ++ "i"
          ++ (if r.Docs = "" then "" else ",docs=" ++ r.Docs ++ "i")
          ++ (if r.Store = "" then "" else ",store=" ++ r.Store ++ "i") := by
  by_cases h1 : r.IP = "" <;> by_cases h2 : r.Node = "" <;> by_cases h3 : r.Docs = ""
    <;> by_cases h4 : r.Store = ""
    <;> obtain ⟨e1, e2, e3, e4, e5, e6, e7, e8, e9⟩ := lineLiterals
    <;> simp [genInfluxDBLineProto, genInfluxDBLineProtoStep, stringsJoin, h1, h2, h3, h4,
      String.append_assoc]
    <;> simp only [e1, e2, e3, e4, e5, e6, e7, e8, e9, String.append_assoc]

/-- C7: the encoding of a record sequence is the one-record encodings of its
records, in input order, with exactly one line feed between consecutive lines
and none before the first or after the last. -/
theorem genInfluxDBLineProto_join (m : String) (rs : List Shard) :
    genInfluxDBLineProto m rs
      = "\n".intercalate (rs.map (fun r => genInfluxDBLineProto m [r])) := by
  rw [← stringsJoin_eq_intercalate]
  simp [genInfluxDBLineProto, genInfluxDBLineProto_foldl]

/-- C8: the encoding of the empty record sequence is the empty string. -/
theorem genInfluxDBLineProto_nil (m : String) : genInfluxDBLineProto m [] = "" := by
  rfl

/-- C9: a record whose Docs, Store, IP and Node are empty is encoded as the
measurement name, the four fixed tags and the single field `shard_value`. -/
theorem genInfluxDBLineProto_minimal (m : String) (r : Shard)
    (hDocs : r.Docs = "") (hStore : r.Store = "") (hIP : r.IP = "") (hNode : r.Node = "") :
    genInfluxDBLineProto m [r]
      = m ++ ",index=" ++ r.Index ++ ",shard=" ++ r.Shard ++ ",prirep=" ++ r.PriRep
          ++ ",state=" ++ r.State ++ " shard_value=" ++ r.Shard ++ "i" := by
  obtain ⟨e1, e2, e3, e4, -, -, e7, -, -⟩ := lineLiterals
  simp [genInfluxDBLineProto, genInfluxDBLineProtoStep, stringsJoin, hDocs, hStore, hIP,
    hNode, String.append_assoc]
  simp only [e1, e2, e3, e4, e7, String.append_assoc]

theorem genInfluxDBLineProto_minimal_witness :
    genInfluxDBLineProto "es_shards" [⟨"logs", "0", "r", "UNASSIGNED", "", "", "", ""⟩]
      = "es_shards" ++ ",index=" ++ "logs" ++ ",shard=" ++ "0" ++ ",prirep=" ++ "r"
          ++ ",state=" ++ "UNASSIGNED" ++ " shard_value=" ++ "0" ++ "i" :=
  genInfluxDBLineProto_minimal "es_shards" ⟨"logs", "0", "r", "UNASSIGNED", "", "", "", ""⟩
    rfl rfl rfl rfl

/-- C5: the record of the end-to-end scenario, normalized and encoded under the
measurement `es_shards`, gives exactly the expected line. -/
theorem genShardStats_scenario :
    genInfluxDBLineProto "es_shards"
        (normalizeFields [⟨"logs", "2", "p", "STARTED", "100", "2048", "10.0.0.1", "node-a"⟩])
      = "es_shards,index=logs,shard=2,prirep=p,state=STARTED,ip=10.0.0.1,node=node-a shard_value=2i,docs=100i,store=2048i" := by
  decide

/-! ## The matcher -/

theorem consumed_append (pre suf : List Char) : consumed (pre ++ suf) suf = pre := by
  simp [consumed]

theorem consumed_nil (s : List Char) : consumed s [] = s := by
  simp [consumed]

theorem starLoop_some {α : Type} (p : Char → Bool) (k : List Char → Option α)
    (s : List Char) (r : α) (h : starLoop p k s = some r) :
    ∃ pre suf, s = pre ++ suf ∧ (∀ c ∈ pre, p c = true) ∧ k suf = some r := by
  induction s with
  | nil => exact ⟨[], [], rfl, by simp, h⟩
  | cons c s ih =>
    simp only [starLoop] at h
    by_cases hp : p c = true
    · rw [if_pos hp] at h
      cases hs : starLoop p k s with
      | none =>
        rw [hs] at h
        exact ⟨[], c :: s, rfl, by simp, h⟩
      | some r' =>
        rw [hs] at h
        have hr : r' = r := by simpa [Option.orElse] using h
        subst hr
        obtain ⟨pre, suf, e, hpre, hk⟩ := ih hs
        refine ⟨c :: pre, suf, by simp [e], ?_, hk⟩
        intro d hd
        rcases List.mem_cons.1 hd with rfl | hd
        · exact hp
        · exact hpre d hd
    · rw [if_neg hp] at h
      exact ⟨[], c :: s, rfl, by simp, h⟩

theorem starLoop_isSome {α : Type} (p : Char → Bool) (k : List Char → Option α)
    (pre suf : List Char) (hpre : ∀ c ∈ pre, p c = true) (hk : (k suf).isSome = true) :
    (starLoop p k (pre ++ suf)).isSome = true := by
  induction pre with
  | nil =>
    cases suf with
    | nil => exact hk
    | cons c s =>
      simp only [List.nil_append, starLoop]
      split
      · cases starLoop p k s <;> simp [Option.orElse, hk]
      · exact hk
  | cons c pre ih =>
    have hc : p c = true := hpre c (List.mem_cons_self c pre)
    have ih' := ih (fun d hd => hpre d (List.mem_cons_of_mem c hd))
    simp only [List.cons_append, starLoop, if_pos hc]
    cases h : starLoop p k (pre ++ suf) with
    | none => simp [h] at ih'
    | some r => simp [Option.orElse]

theorem run_cat (text : List Char) (a b : Regexp)
    (k : List Char → List (List Char) → Option (List (List Char)))
    (s : List Char) (caps : List (List Char)) :
    (Regexp.cat a b).run text k s caps
      = a.run text (fun s' caps' => b.run text k s' caps') s caps := rfl

theorem run_capture (text : List Char) (i : Nat) (a : Regexp)
    (k : List Char → List (List Char) → Option (List (List Char)))
    (s : List Char) (caps : List (List Char)) :
    (Regexp.capture i a).run text k s caps
      = a.run text (fun s' caps' => k s' (caps'.set i (consumed s s'))) s caps := rfl

theorem run_beginText (text : List Char)
    (k : List Char → List (List Char) → Option (List (List Char)))
    (s : List Char) (caps : List (List Char)) :
    Regexp.beginText.run text k s caps
      = if s.length = text.length then k s caps else none := rfl

theorem run_endText (text : List Char)
    (k : List Char → List (List Char) → Option (List (List Char)))
    (s : List Char) (caps : List (List Char)) :
    Regexp.endText.run text k s caps = if s = [] then k s caps else none := rfl

theorem run_star_some (text : List Char) (p : Char → Bool)
    (k : List Char → List (List Char) → Option (List (List Char)))
    (s : List Char) (caps r : List (List Char))
    (h : (Regexp.star p).run text k s caps = some r) :
    ∃ pre suf, s = pre ++ suf ∧ (∀ c ∈ pre, p c = true) ∧ k suf caps = some r :=
  starLoop_some p (fun s' => k s' caps) s r h

theorem run_star_isSome (text : List Char) (p : Char → Bool)
    (k : List Char → List (List Char) → Option (List (List Char)))
    (pre suf : List Char) (caps : List (List Char))
    (hpre : ∀ c ∈ pre, p c = true) (hk : (k suf caps).isSome = true) :
    ((Regexp.star p).run text k (pre ++ suf) caps).isSome = true :=
  starLoop_isSome p (fun s' => k s' caps) pre suf hpre hk

theorem run_plus_some (text : List Char) (p : Char → Bool)
    (k : List Char → List (List Char) → Option (List (List Char)))
    (s : List Char) (caps r : List (List Char))
    (h : (Regexp.plus p).run text k s caps = some r) :
    ∃ pre suf, s = pre ++ suf ∧ pre ≠ [] ∧ (∀ c ∈ pre, p c = true) ∧ k suf caps = some r := by
  cases s with
  | nil => simp [Regexp.run] at h
  | cons c s =>
    simp only [Regexp.run] at h
    by_cases hp : p c = true
    · rw [if_pos hp] at h
      obtain ⟨pre, suf, e, hpre, hk⟩ := starLoop_some p (fun s' => k s' caps) s r h
      refine ⟨c :: pre, suf, by simp [e], by simp, ?_, hk⟩
      intro d hd
      rcases List.mem_cons.1 hd with rfl | hd
      · exact hp
      · exact hpre d hd
    · rw [if_neg hp] at h
      exact absurd h (by simp)

theorem run_plus_isSome (text : List Char) (p : Char → Bool)
    (k : List Char → List (List Char) → Option (List (List Char)))
    (pre suf : List Char) (caps : List (List Char)) (hne : pre ≠ [])
    (hpre : ∀ c ∈ pre, p c = true) (hk : (k suf caps).isSome = true) :
    ((Regexp.plus p).run text k (pre ++ suf) caps).isSome = true := by
  cases pre with
  | nil => exact absurd rfl hne
  | cons c pre =>
    have hc : p c = true := hpre c (List.mem_cons_self c pre)
    simp only [List.cons_append, Regexp.run, if_pos hc]
    exact starLoop_isSome p (fun s' => k s' caps) pre suf
      (fun d hd => hpre d (List.mem_cons_of_mem c hd)) hk

theorem run_cls_some (text : List Char) (p : Char → Bool)
    (k : List Char → List (List Char) → Option (List (List Char)))
    (s : List Char) (caps r : List (List Char))
    (h : (Regexp.cls p).run text k s caps = some r) :
    ∃ c suf, s = c :: suf ∧ p c = true ∧ k suf caps = some r := by
  cases s with
  | nil => simp [Regexp.run] at h
  | cons c s =>
    simp only [Regexp.run] at h
    by_cases hp : p c = true
    · rw [if_pos hp] at h
      exact ⟨c, s, rfl, hp, h⟩
    · rw [if_neg hp] at h
      exact absurd h (by simp)

theorem run_cls_cons (text : List Char) (p : Char → Bool)
    (k : List Char → List (List Char) → Option (List (List Char)))
    (c : Char) (suf : List Char) (caps : List (List Char)) (hc : p c = true) :
    (Regexp.cls p).run text k (c :: suf) caps = k suf caps := by
  simp [Regexp.run, hc]

/-! ## The relocation pattern -/

theorem numSubexp_re : re.numSubexp = 2 := rfl

theorem matchAt_re_some (text : List Char) (caps : List (List Char))
    (h : re.matchAt text text = some caps) :
    ∃ A B, RelocForm text A B ∧ caps = [text, A, B] := by
  simp only [Regexp.matchAt, numSubexp_re] at h
  simp only [re, run_cat, run_capture, run_beginText, if_true] at h
  obtain ⟨A, s1, e1, hA, hAp, h1⟩ := run_plus_some _ _ _ _ _ _ h
  clear h
  obtain ⟨W, s2, e2, hW, hWp, h2⟩ := run_plus_some _ _ _ _ _ _ h1
  clear h1
  obtain ⟨R, s3, e3, hRp, h3⟩ := run_star_some _ _ _ _ _ _ h2
  clear h2
  obtain ⟨w, s4, e4, hw, h4⟩ := run_cls_some _ _ _ _ _ _ h3
  clear h3
  obtain ⟨B, s5, e5, hB, hBp, h5⟩ := run_plus_some _ _ _ _ _ _ h4
  clear h4
  rw [run_endText] at h5
  by_cases hs : s5 = []
  · rw [if_pos hs] at h5
    subst hs
    simp only [List.append_nil] at e5
    subst e5 e4 e3 e2
    refine ⟨A, s4, ⟨W, R, w, e1, hA, hAp, hW, hWp, hRp, hw, hB, hBp⟩, ?_⟩
    have hc : consumed text (W ++ (R ++ w :: s4)) = A := by
      rw [e1]; exact consumed_append _ _
    have hd : consumed s4 [] = s4 := consumed_nil _
    rw [hc, hd, consumed_nil] at h5
    simpa [List.replicate, List.set] using h5.symm
  · rw [if_neg hs] at h5
    exact absurd h5 (by simp)

theorem matchAt_re_isSome (text A B : List Char) (h : RelocForm text A B) :
    (re.matchAt text text).isSome = true := by
  obtain ⟨W, R, w, e, hA, hAp, hW, hWp, hRp, hw, hB, hBp⟩ := h
  simp only [Regexp.matchAt, numSubexp_re]
  simp only [re, run_cat, run_capture, run_beginText, if_true]
  rw [e]
  apply run_plus_isSome _ _ _ _ _ _ hA hAp
  apply run_plus_isSome _ _ _ _ _ _ hW hWp
  apply run_star_isSome _ _ _ _ _ _ hRp
  rw [run_cls_cons _ _ _ _ _ _ hw]
  have hB' : B = B ++ [] := by simp
  rw [hB']
  apply run_plus_isSome _ _ _ _ _ _ hB hBp
  simp [run_endText]

theorem matchAt_re_none (text s : List Char) (h : s.length ≠ text.length) :
    re.matchAt text s = none := by
  simp only [Regexp.matchAt, re, run_cat, run_beginText, if_neg h]

theorem search_re_none (text : List Char) (s : List Char) (h : s.length < text.length) :
    re.search text s = none := by
  induction s with
  | nil => exact matchAt_re_none text [] (Nat.ne_of_lt h)
  | cons c s ih =>
    have hs : s.length < text.length := by
      simp only [List.length_cons] at h
      omega
    simp [Regexp.search, matchAt_re_none text (c :: s) (Nat.ne_of_lt h), ih hs, Option.orElse]

theorem search_re (text : List Char) : re.search text text = re.matchAt text text := by
  cases text with
  | nil => rfl
  | cons c s =>
    have hs : re.search (c :: s) s = none := search_re_none (c :: s) s (by simp)
    cases h : re.matchAt (c :: s) (c :: s) <;> simp [Regexp.search, h, hs, Option.orElse]

theorem takeWhile_append_stop (p : Char → Bool) (A rest : List Char) (w : Char)
    (hA : ∀ c ∈ A, p c = true) (hw : p w = false) :
    (A ++ w :: rest).takeWhile p = A := by
  induction A with
  | nil => simp [List.takeWhile, hw]
  | cons a A ih =>
    have ha : p a = true := hA a (List.mem_cons_self a A)
    simp [List.takeWhile, ha, ih (fun d hd => hA d (List.mem_cons_of_mem a hd))]

theorem isSpace_not_notSpace (c : Char) (h : isSpace c = true) : notSpace c = false := by
  simp [notSpace, h]

/-- The first token of a text of the relocation shape is its longest
whitespace-free prefix, the last token its longest whitespace-free suffix. -/
theorem RelocForm.tokens (text A B : List Char) (h : RelocForm text A B) :
    A = text.takeWhile notSpace ∧ B = (text.reverse.takeWhile notSpace).reverse := by
  obtain ⟨W, R, w, e, hA, hAp, hW, hWp, hRp, hw, hB, hBp⟩ := h
  constructor
  · cases W with
    | nil => exact absurd rfl hW
    | cons v W =>
      have hv : notSpace v = false :=
        isSpace_not_notSpace v (hWp v (List.mem_cons_self v W))
      rw [e, List.cons_append, takeWhile_append_stop notSpace A _ v hAp hv]
  · have er : text.reverse = B.reverse ++ w :: (A ++ (W ++ R)).reverse := by
      rw [e]; simp
    rw [er, takeWhile_append_stop notSpace B.reverse _ w
      (fun c hc => hBp c (List.mem_reverse.1 hc)) (isSpace_not_notSpace w hw)]
    simp

theorem RelocForm.unique (text A B A' B' : List Char) (h : RelocForm text A B)
    (h' : RelocForm text A' B') : A = A' ∧ B = B' := by
  obtain ⟨hA, hB⟩ := RelocForm.tokens text A B h
  obtain ⟨hA', hB'⟩ := RelocForm.tokens text A' B' h'
  exact ⟨hA.trans hA'.symm, hB.trans hB'.symm⟩

/-- A text of the relocation shape matches, and the two groups are its tokens. -/
theorem FindStringSubmatch_re_of_form (s : String) (A B : List Char)
    (h : RelocForm s.data A B) :
    re.FindStringSubmatch s = some [s, String.mk A, String.mk B] := by
  have hs := matchAt_re_isSome s.data A B h
  cases hm : re.matchAt s.data s.data with
  | none => simp [hm] at hs
  | some caps =>
    obtain ⟨A', B', h', hc⟩ := matchAt_re_some s.data caps hm
    obtain ⟨eA, eB⟩ := RelocForm.unique s.data A B A' B' h h'
    subst eA eB hc
    simp [Regexp.FindStringSubmatch, search_re, hm]

/-- A match of the pattern comes from a text of the relocation shape. -/
theorem FindStringSubmatch_re_some (s : String) (m : List String)
    (h : re.FindStringSubmatch s = some m) :
    ∃ A B, RelocForm s.data A B ∧ m = [s, String.mk A, String.mk B] := by
  simp only [Regexp.FindStringSubmatch, search_re] at h
  cases hm : re.matchAt s.data s.data with
  | none => simp [hm] at h
  | some caps =>
    obtain ⟨A, B, h', hc⟩ := matchAt_re_some s.data caps hm
    refine ⟨A, B, h', ?_⟩
    subst hc
    simpa [hm] using h.symm

/-- The pattern does not match exactly when the text is not of the relocation shape. -/
theorem FindStringSubmatch_re_none (s : String) :
    re.FindStringSubmatch s = none ↔ ¬ ∃ A B, RelocForm s.data A B := by
  constructor
  · rintro h ⟨A, B, hf⟩
    rw [FindStringSubmatch_re_of_form s A B hf] at h
    exact absurd h (by simp)
  · intro h
    cases hm : re.FindStringSubmatch s with
    | none => rfl
    | some m =>
      obtain ⟨A, B, hf, -⟩ := FindStringSubmatch_re_some s m hm
      exact absurd ⟨A, B, hf⟩ h

/-! ## The normalizer -/

theorem replaceChars_nil_eq_filter (old : Char) (l : List Char) :
    replaceChars old [] l = l.filter (fun c => c ≠ old) := by
  induction l with
  | nil => rfl
  | cons c l ih =>
    by_cases h : c = old
    · simp [replaceChars, h, ih]
    · simp [replaceChars, h, ih]

theorem stringsReplace_space_data (s : String) :
    (stringsReplace s ' ' "").data = s.data.filter (fun c => c ≠ ' ') := by
  simp [stringsReplace, replaceChars_nil_eq_filter]

theorem stringsReplace_eq_filter (s : String) :
    stringsReplace s ' ' "" = String.mk (s.data.filter (fun c => c ≠ ' ')) := by
  simp [stringsReplace, replaceChars_nil_eq_filter]

theorem stringsReplace_of_no_space (s : String) (h : ∀ c ∈ s.data, c ≠ ' ') :
    stringsReplace s ' ' "" = s := by
  apply String.ext
  rw [stringsReplace_space_data]
  exact List.filter_eq_self.2 (fun c hc => by simpa using h c hc)

theorem stringsReplace_idem (s : String) :
    stringsReplace (stringsReplace s ' ' "") ' ' "" = stringsReplace s ' ' "" := by
  apply stringsReplace_of_no_space
  intro c hc
  rw [stringsReplace_space_data] at hc
  simpa using (List.mem_filter.1 hc).2

theorem notSpace_ne_space (c : Char) (h : notSpace c = true) : c ≠ ' ' := by
  rintro rfl
  exact absurd h (by decide)

theorem normalizeFieldsStep_append (acc : List Shard) (r : Shard) :
    normalizeFieldsStep acc r = acc ++ normalizeFields [r] := by
  simp only [normalizeFields, List.foldl, normalizeFieldsStep]
  split
  · split <;> simp
  · simp

theorem normalizeFields_foldl (xs acc : List Shard) :
    xs.foldl normalizeFieldsStep acc = acc ++ normalizeFields xs := by
  induction xs generalizing acc with
  | nil => simp [normalizeFields]
  | cons r xs ih =>
    rw [List.foldl_cons, ih, normalizeFieldsStep_append]
    simp only [normalizeFields, List.foldl_cons]
    rw [ih (normalizeFieldsStep [] r)]
    simp [normalizeFields, List.append_assoc]

theorem normalizeFields_cons (r : Shard) (xs : List Shard) :
    normalizeFields (r :: xs) = normalizeFields [r] ++ normalizeFields xs := by
  have h := normalizeFields_foldl xs (normalizeFieldsStep [] r)
  simpa [normalizeFields] using h

theorem normalizeFields_append (xs ys : List Shard) :
    normalizeFields (xs ++ ys) = normalizeFields xs ++ normalizeFields ys := by
  induction xs with
  | nil => simp [normalizeFields]
  | cons r xs ih =>
    rw [List.cons_append, normalizeFields_cons r (xs ++ ys), ih, normalizeFields_cons r xs,
      List.append_assoc]

theorem normalizeFields_other (r : Shard) (h : r.State ≠ "RELOCATING") :
    normalizeFields [r] = [{ r with Node := stringsReplace r.Node ' ' "" }] := by
  simp [normalizeFields, normalizeFieldsStep, h]

theorem normalizeFields_unmatched (r : Shard) (h : r.State = "RELOCATING")
    (hm : re.FindStringSubmatch r.Node = none) : normalizeFields [r] = [] := by
  simp [normalizeFields, normalizeFieldsStep, h, hm]

theorem normalizeFields_matched (r : Shard) (m : List String) (h : r.State = "RELOCATING")
    (hm : re.FindStringSubmatch r.Node = some m) :
    normalizeFields [r]
      = [{ r with Node := stringsReplace (m.getD 1 "" ++ "->" ++ m.getD 2 "") ' ' "" }] := by
  simp [normalizeFields, normalizeFieldsStep, h, hm]

/-- A relocating shard whose node has the relocation shape is kept with the two
tokens joined by an arrow. -/
theorem normalizeFields_of_form (r : Shard) (A B : List Char) (h : r.State = "RELOCATING")
    (hf : RelocForm r.Node.data A B) :
    normalizeFields [r] = [{ r with Node := String.mk A ++ "->" ++ String.mk B }] := by
  rw [normalizeFields_matched r _ h (FindStringSubmatch_re_of_form r.Node A B hf)]
  obtain ⟨W, R, w, e, hA, hAp, hW, hWp, hRp, hw, hB, hBp⟩ := hf
  have hn : stringsReplace (String.mk A ++ "->" ++ String.mk B) ' ' ""
      = String.mk A ++ "->" ++ String.mk B := by
    apply stringsReplace_of_no_space
    intro c hc
    simp only [String.data_append, List.mem_append] at hc
    rcases hc with (hc | hc) | hc
    · exact notSpace_ne_space c (hAp c hc)
    · have hc' : c = '-' ∨ c = '>' := by simpa using hc
      rcases hc' with rfl | rfl <;> decide
    · exact notSpace_ne_space c (hBp c hc)
  simpa using hn

theorem dropWhile_append_all (p : Char → Bool) (W R : List Char)
    (hW : ∀ c ∈ W, p c = true) : (W ++ R).dropWhile p = R.dropWhile p := by
  induction W with
  | nil => rfl
  | cons v W ih =>
    have hv : p v = true := hW v (List.mem_cons_self v W)
    simp [List.dropWhile, hv, ih (fun d hd => hW d (List.mem_cons_of_mem v hd))]

theorem mem_of_mem_dropWhile (p : Char → Bool) (c : Char) (l : List Char)
    (h : c ∈ l.dropWhile p) : c ∈ l :=
  (List.dropWhile_suffix p).subset h

/-- Two tokens separated by a space, a middle and a space: the text has the
relocation shape when the middle has no line feed after its leading whitespace. -/
theorem relocForm_spaced (A M B : List Char) (hA : A ≠ [])
    (hAp : ∀ c ∈ A, notSpace c = true) (hB : B ≠ []) (hBp : ∀ c ∈ B, notSpace c = true)
    (hM : '\n' ∉ M.dropWhile isSpace) :
    RelocForm (A ++ ' ' :: (M ++ ' ' :: B)) A B := by
  refine ⟨' ' :: M.takeWhile isSpace, M.dropWhile isSpace, ' ', ?_, hA, hAp, by simp, ?_, ?_,
    by decide, hB, hBp⟩
  · have e : M.takeWhile isSpace ++ M.dropWhile isSpace = M := List.takeWhile_append_dropWhile _ _
    simp only [List.cons_append, ← List.append_assoc, e]
  · intro c hc
    rcases List.mem_cons.1 hc with rfl | hc
    · decide
    · exact (List.mem_takeWhile_imp hc)
  · intro c hc
    have hne : c ≠ '\n' := by
      rintro rfl
      exact hM hc
    simp [anyCharNotNL, hne]

/-- Conversely the relocation shape of such a text forbids a line feed after the
leading whitespace of the middle. -/
theorem relocForm_spaced_inv (A M B A' B' : List Char)
    (hAp : ∀ c ∈ A, notSpace c = true) (hBp : ∀ c ∈ B, notSpace c = true)
    (h : RelocForm (A ++ ' ' :: (M ++ ' ' :: B)) A' B') :
    '\n' ∉ M.dropWhile isSpace := by
  obtain ⟨eA, eB⟩ := RelocForm.tokens _ A' B' h
  have hA' : A' = A := by
    rw [eA, takeWhile_append_stop notSpace A _ ' ' hAp (by decide)]
  have hB' : B' = B := by
    have er : (A ++ ' ' :: (M ++ ' ' :: B)).reverse
        = B.reverse ++ ' ' :: (A ++ ' ' :: M).reverse := by simp
    rw [eB, er, takeWhile_append_stop notSpace B.reverse _ ' '
      (fun c hc => hBp c (List.mem_reverse.1 hc)) (by decide)]
    simp
  subst hA' hB'
  obtain ⟨W, R, w, e, -, -, hW, hWp, hRp, -, -, -⟩ := h
  have e1 : ' ' :: (M ++ ' ' :: B') = W ++ (R ++ w :: B') := List.append_cancel_left e
  have e2 : (' ' :: M) ++ (' ' :: B') = (W ++ R) ++ (w :: B') := by
    simpa [List.append_assoc] using e1
  have e3 : ' ' :: M = W ++ R := (List.append_inj' e2 (by simp)).1
  cases W with
  | nil => exact absurd rfl hW
  | cons v W =>
    have e4 : M = W ++ R := by
      simp only [List.cons_append, List.cons.injEq] at e3
      exact e3.2
    intro hmem
    rw [e4, dropWhile_append_all isSpace W R
      (fun d hd => hWp d (List.mem_cons_of_mem v hd))] at hmem
    have := hRp '\n' (mem_of_mem_dropWhile isSpace '\n' R hmem)
    exact absurd this (by decide)

/-- C1, as amended: a relocating record whose node is tokenA, a space, a middle,
a space and tokenB (both tokens non-empty and free of whitespace) is retained
with node tokenA ++ "->" ++ tokenB when the middle has no line feed after its
leading whitespace, and is dropped otherwise. -/
theorem normalizeFields_relocating (r : Shard) (tokenA middle tokenB : String)
    (hState : r.State = "RELOCATING")
    (hNode : r.Node = tokenA ++ " " ++ middle ++ " " ++ tokenB)
    (hA : tokenA ≠ "") (hAs : ∀ c ∈ tokenA.data, isSpace c = false)
    (hB : tokenB ≠ "") (hBs : ∀ c ∈ tokenB.data, isSpace c = false) :
    normalizeFields [r]
      = if '\n' ∈ middle.data.dropWhile isSpace then []
        else [{ r with Node := tokenA ++ "->" ++ tokenB }] := by
  have hd : r.Node.data = tokenA.data ++ ' ' :: (middle.data ++ ' ' :: tokenB.data) := by
    rw [hNode]
    simp [String.data_append]
  have hA' : tokenA.data ≠ [] := fun e => hA (String.ext e)
  have hB' : tokenB.data ≠ [] := fun e => hB (String.ext e)
  have hAp : ∀ c ∈ tokenA.data, notSpace c = true := fun c hc => by simp [notSpace, hAs c hc]
  have hBp : ∀ c ∈ tokenB.data, notSpace c = true := fun c hc => by simp [notSpace, hBs c hc]
  by_cases hM : '\n' ∈ middle.data.dropWhile isSpace
  · rw [if_pos hM]
    apply normalizeFields_unmatched r hState
    rw [FindStringSubmatch_re_none]
    rintro ⟨A', B', hf⟩
    rw [hd] at hf
    exact relocForm_spaced_inv _ _ _ A' B' hAp hBp hf hM
  · rw [if_neg hM]
    have hf : RelocForm r.Node.data tokenA.data tokenB.data := by
      rw [hd]
      exact relocForm_spaced _ _ _ hA' hAp hB' hBp hM
    exact normalizeFields_of_form r _ _ hState hf

theorem normalizeFields_relocating_witness :
    normalizeFields [⟨"logs", "2", "p", "RELOCATING", "", "", "10.0.0.1",
        "node-a 1.2.3.4 10.0.0.2 node-b"⟩]
      = [⟨"logs", "2", "p", "RELOCATING", "", "", "10.0.0.1", "node-a->node-b"⟩] :=
  normalizeFields_relocating
    ⟨"logs", "2", "p", "RELOCATING", "", "", "10.0.0.1", "node-a 1.2.3.4 10.0.0.2 node-b"⟩
    "node-a" "1.2.3.4 10.0.0.2" "node-b" rfl (by decide) (by decide) (by decide) (by decide)
    (by decide)

/-- C1, as stated, fails: with a line feed inside the middle text the pattern
does not match and the record is dropped instead of being rewritten. -/
theorem normalizeFields_relocating_counterexample :
    ("a x\ny b" : String) = "a" ++ " " ++ "x\ny" ++ " " ++ "b"
      ∧ (∀ c ∈ ("a" : String).data, isSpace c = false)
      ∧ (∀ c ∈ ("b" : String).data, isSpace c = false)
      ∧ normalizeFields [⟨"logs", "2", "p", "RELOCATING", "", "", "10.0.0.1", "a x\ny b"⟩]
          = [] := by
  decide

theorem normalizeFields_length_add (xs : List Shard) :
    (normalizeFields xs).length
        + (xs.filter (fun r =>
            decide (r.State = "RELOCATING") && (re.FindStringSubmatch r.Node).isNone)).length
      = xs.length := by
  induction xs with
  | nil => rfl
  | cons r xs ih =>
    rw [normalizeFields_cons, List.length_append, List.length_cons]
    by_cases h : r.State = "RELOCATING"
    · cases hm : re.FindStringSubmatch r.Node with
      | none =>
        rw [normalizeFields_unmatched r h hm]
        simp only [List.filter_cons, h, hm, decide_True, Option.isNone_none, Bool.and_self,
          if_true, List.length_cons, List.length_nil]
        omega
      | some m =>
        rw [normalizeFields_matched r m h hm]
        simp only [List.filter_cons, h, hm, decide_True, Option.isNone_some, Bool.and_false,
          List.length_cons, List.length_nil]
        simp only [Bool.false_eq_true, if_false]
        omega
    · rw [normalizeFields_other r h]
      simp only [List.filter_cons, h, decide_False, Bool.false_and, List.length_cons,
        List.length_nil]
      simp only [Bool.false_eq_true, if_false]
      omega

/-- C2, as amended: the output is shorter than the input by exactly the number
of relocating records whose node does not match the pattern; such a record
contributes nothing to the output at its place, and a record with any other
state is retained at its place, the same record but for the space characters
removed from its node. -/
theorem normalizeFields_drop_count (xs : List Shard) :
    (normalizeFields xs).length
        = xs.length - (xs.filter (fun r =>
            decide (r.State = "RELOCATING") && (re.FindStringSubmatch r.Node).isNone)).length
      ∧ (normalizeFields xs).length
          + (xs.filter (fun r =>
              decide (r.State = "RELOCATING") && (re.FindStringSubmatch r.Node).isNone)).length
        = xs.length
      ∧ (∀ pre r post, xs = pre ++ r :: post → r.State = "RELOCATING" →
          re.FindStringSubmatch r.Node = none →
          normalizeFields xs = normalizeFields pre ++ normalizeFields post)
      ∧ (∀ pre r post, xs = pre ++ r :: post → r.State ≠ "RELOCATING" →
          normalizeFields xs
            = normalizeFields pre
                ++ { r with Node := String.mk (r.Node.data.filter (fun c => c ≠ ' ')) }
                  :: normalizeFields post) := by
  have hlen := normalizeFields_length_add xs
  refine ⟨by omega, hlen, ?_, ?_⟩
  · intro pre r post e hs hm
    rw [e, normalizeFields_append, normalizeFields_cons, normalizeFields_unmatched r hs hm]
    rfl
  · intro pre r post e hs
    rw [e, normalizeFields_append, normalizeFields_cons, normalizeFields_other r hs,
      stringsReplace_eq_filter]
    rfl

theorem normalizeFields_drop_count_witness :
    normalizeFields [⟨"logs", "0", "p", "RELOCATING", "", "", "", "singletoken"⟩] = [] :=
  (normalizeFields_drop_count [⟨"logs", "0", "p", "RELOCATING", "", "", "", "singletoken"⟩]).2.2.1
    [] ⟨"logs", "0", "p", "RELOCATING", "", "", "", "singletoken"⟩ [] rfl (by decide) (by decide)

/-- C2, as stated, fails by value: a relocating record whose node "a->b" does
not match the pattern is dropped at its place, yet an equal record appears in
the output, as the rewrite of the record with node "a  b". -/
theorem normalizeFields_drop_count_counterexample :
    (⟨"logs", "0", "p", "RELOCATING", "", "", "", "a->b"⟩ : Shard)
        ∈ [(⟨"logs", "0", "p", "RELOCATING", "", "", "", "a  b"⟩ : Shard),
            ⟨"logs", "0", "p", "RELOCATING", "", "", "", "a->b"⟩]
      ∧ re.FindStringSubmatch "a->b" = none
      ∧ (⟨"logs", "0", "p", "RELOCATING", "", "", "", "a->b"⟩ : Shard)
        ∈ normalizeFields [⟨"logs", "0", "p", "RELOCATING", "", "", "", "a  b"⟩,
            ⟨"logs", "0", "p", "RELOCATING", "", "", "", "a->b"⟩] := by
  decide

/-- C3, as amended: a record whose state is not RELOCATING yields, at its place
in the output, the same record with every space character U+0020 removed from
the node, so that the new node contains no space character. -/
theorem normalizeFields_strip_spaces (pre post : List Shard) (r : Shard)
    (hState : r.State ≠ "RELOCATING") :
    normalizeFields (pre ++ r :: post)
        = normalizeFields pre
            ++ { r with Node := String.mk (r.Node.data.filter (fun c => c ≠ ' ')) }
              :: normalizeFields post
      ∧ ' ' ∉ r.Node.data.filter (fun c => c ≠ ' ') := by
  constructor
  · rw [normalizeFields_append, normalizeFields_cons, normalizeFields_other r hState,
      stringsReplace_eq_filter]
    rfl
  · simp

theorem normalizeFields_strip_spaces_witness :
    normalizeFields [⟨"logs", "0", "p", "STARTED", "", "", "", "no de\t1"⟩]
      = [⟨"logs", "0", "p", "STARTED", "", "", "", "node\t1"⟩] :=
  (normalizeFields_strip_spaces [] [] ⟨"logs", "0", "p", "STARTED", "", "", "", "no de\t1"⟩
    (by decide)).1

/-- C3, as stated, fails: a tab in the node of a started shard is a whitespace
character and survives normalization. -/
theorem normalizeFields_strip_counterexample :
    normalizeFields [⟨"logs", "0", "p", "STARTED", "", "", "", "a\tb"⟩]
        = [⟨"logs", "0", "p", "STARTED", "", "", "", "a\tb"⟩]
      ∧ '\t' ∈ ("a\tb" : String).data ∧ isSpace '\t' = true := by
  decide

/-- C6: the output is the retained records of the input (all but the relocating
records whose node does not match), in their original order, each changed in its
node only. -/
theorem normalizeFields_order_frame :
    ∃ node : Shard → String, ∀ xs : List Shard,
      normalizeFields xs
        = ((xs.filter (fun r =>
              !(decide (r.State = "RELOCATING") && (re.FindStringSubmatch r.Node).isNone))).map
            (fun r => { r with Node := node r })) := by
  refine ⟨fun r => ((normalizeFields [r]).map Shard.Node).headD r.Node, ?_⟩
  intro xs
  induction xs with
  | nil => rfl
  | cons r xs ih =>
    rw [normalizeFields_cons, ih]
    by_cases h : r.State = "RELOCATING"
    · cases hm : re.FindStringSubmatch r.Node with
      | none => simp [normalizeFields_unmatched r h hm, h, hm]
      | some m =>
        simp [normalizeFields_matched r m h hm, h, hm]
    · simp [normalizeFields_other r h, h]

/-- C10: on a record whose state is not RELOCATING, normalizing twice gives the
same result as normalizing once. -/
theorem normalizeFields_idempotent_other (r : Shard) (hState : r.State ≠ "RELOCATING") :
    normalizeFields (normalizeFields [r]) = normalizeFields [r] := by
  rw [normalizeFields_other r hState]
  have h' : ({ r with Node := stringsReplace r.Node ' ' "" } : Shard).State ≠ "RELOCATING" :=
    hState
  rw [normalizeFields_other _ h', stringsReplace_idem]

theorem normalizeFields_idempotent_other_witness :
    normalizeFields (normalizeFields [⟨"logs", "0", "p", "STARTED", "", "", "", "no de 1"⟩])
      = normalizeFields [⟨"logs", "0", "p", "STARTED", "", "", "", "no de 1"⟩] :=
  normalizeFields_idempotent_other ⟨"logs", "0", "p", "STARTED", "", "", "", "no de 1"⟩
    (by decide)

/-! ## Fetching, parsing and the pipeline -/

theorem foldl_append_singleton (es acc : List String) :
    es.foldl (fun errsStr e => errsStr ++ [e]) acc = acc ++ es := by
  induction es generalizing acc with
  | nil => simp
  | cons e es ih => simp [ih]

theorem esQuery_errs (httpGet : String → Int → Response × String × Option (List String))
    (esURL : String) (timeout : Int) (resp : Response) (body : String) (es : List String)
    (h : httpGet esURL timeout = (resp, body, some es)) :
    esQuery httpGet esURL timeout = ("", some (", ".intercalate es)) := by
  simp [esQuery, h, foldl_append_singleton, stringsJoin_eq_intercalate]

theorem esQuery_status (httpGet : String → Int → Response × String × Option (List String))
    (esURL : String) (timeout : Int) (resp : Response) (body : String)
    (h : httpGet esURL timeout = (resp, body, none)) (hs : resp.StatusCode ≠ 200) :
    esQuery httpGet esURL timeout = ("", some ("HTTP response code: " ++ resp.Status)) := by
  simp [esQuery, h, hs]

theorem esQuery_ok (httpGet : String → Int → Response × String × Option (List String))
    (esURL : String) (timeout : Int) (resp : Response) (body : String)
    (h : httpGet esURL timeout = (resp, body, none)) (hs : resp.StatusCode = 200) :
    esQuery httpGet esURL timeout = (body, none) := by
  simp [esQuery, h, hs]

/-- C12: with the outcome of the HTTP client as input, `esQuery` returns the
empty body and the error messages joined by ", " when the client reported
errors, else the empty body and "HTTP response code: " followed by the status
line when the status code is not 200, else the body and no error; whenever it
returns an error the body is empty. -/
theorem esQuery_result (httpGet : String → Int → Response × String × Option (List String))
    (esURL : String) (timeout : Int) (resp : Response) (body : String)
    (errs : Option (List String)) (h : httpGet esURL timeout = (resp, body, errs)) :
    (∀ es, errs = some es →
        esQuery httpGet esURL timeout = ("", some (", ".intercalate es)))
      ∧ (errs = none → resp.StatusCode ≠ 200 →
          esQuery httpGet esURL timeout = ("", some ("HTTP response code: " ++ resp.Status)))
      ∧ (errs = none → resp.StatusCode = 200 →
          esQuery httpGet esURL timeout = (body, none))
      ∧ ((esQuery httpGet esURL timeout).2 ≠ none → (esQuery httpGet esURL timeout).1 = "") := by
  refine ⟨?_, ?_, ?_, ?_⟩
  · intro es he
    subst he
    exact esQuery_errs httpGet esURL timeout resp body es h
  · intro he hs
    subst he
    exact esQuery_status httpGet esURL timeout resp body h hs
  · intro he hs
    subst he
    exact esQuery_ok httpGet esURL timeout resp body h hs
  · intro hne
    cases errs with
    | some es => rw [esQuery_errs httpGet esURL timeout resp body es h]
    | none =>
      by_cases hs : resp.StatusCode = 200
      · rw [esQuery_ok httpGet esURL timeout resp body h hs] at hne
        exact absurd rfl hne
      · rw [esQuery_status httpGet esURL timeout resp body h hs]

theorem esQuery_result_witness :
    esQuery (fun _ _ => (⟨404, "404 Not Found"⟩, "not here", none))
        "http://localhost:9200/_cat/shards?format=json&bytes=b" 10
      = ("", some ("HTTP response code: " ++ "404 Not Found")) :=
  (esQuery_result (fun _ _ => (⟨404, "404 Not Found"⟩, "not here", none))
    "http://localhost:9200/_cat/shards?format=json&bytes=b" 10
    ⟨404, "404 Not Found"⟩ "not here" none rfl).2.1 rfl (by decide)

theorem parseShards_err (unmarshal : String → List Shard × Option String) (data : String)
    (h : (unmarshal data).2 ≠ none) :
    parseShards unmarshal data = ((unmarshal data).1, some "JSON parse failed") := by
  unfold parseShards
  cases hu : unmarshal data with
  | mk shards err =>
    rw [hu] at h
    simp only [ne_eq] at h
    simp [h]

theorem parseShards_ok (unmarshal : String → List Shard × Option String) (data : String)
    (h : (unmarshal data).2 = none) :
    parseShards unmarshal data = ((unmarshal data).1, none) := by
  unfold parseShards
  cases hu : unmarshal data with
  | mk shards err =>
    rw [hu] at h
    simp only at h
    simp [h]

/-- C13, as amended: when the decoding of the body fails, `parseShards` returns
the fixed error "JSON parse failed" together with the record sequence exactly
as the decoder left it; the sequence is empty when the decoder stored nothing. -/
theorem parseShards_decode_failure (unmarshal : String → List Shard × Option String)
    (data : String) (hErr : (unmarshal data).2 ≠ none) :
    (parseShards unmarshal data).2 = some "JSON parse failed"
      ∧ (parseShards unmarshal data).1 = (unmarshal data).1
      ∧ ((unmarshal data).1 = [] → parseShards unmarshal data = ([], some "JSON parse failed")) := by
  rw [parseShards_err unmarshal data hErr]
  refine ⟨rfl, rfl, ?_⟩
  intro h
  rw [h]

theorem parseShards_decode_failure_witness :
    parseShards (fun _ => ([], some "unexpected end of JSON input")) "[" 
      = ([], some "JSON parse failed") :=
  (parseShards_decode_failure (fun _ => ([], some "unexpected end of JSON input")) "["
    (by decide)).2.2 rfl

/-- C13, as stated, fails: on a body whose `shard` field is a number the decoder
reports a type error after it has stored the record, and `parseShards` returns
that record sequence, which is not empty, with the error. -/
theorem parseShards_decode_failure_counterexample :
    (unmarshalTypeMismatch "[\x7b\"index\":\"logs\",\"shard\":2\x7d]").2 ≠ none
      ∧ parseShards unmarshalTypeMismatch "[\x7b\"index\":\"logs\",\"shard\":2\x7d]"
          = ([⟨"logs", "", "", "", "", "", "", ""⟩], some "JSON parse failed") := by
  decide

/-- C11: with the outcomes of the HTTP client and of the decoder as inputs,
`genShardStats` returns the empty string and the fetch error when the fetch
fails, whatever the decoder does; the empty string and the parse error when the
fetch succeeds and the parse fails; and the encoding of the normalized parsed
records with no error when both succeed. An error never comes with output. -/
theorem genShardStats_propagation
    (httpGet : String → Int → Response × String × Option (List String))
    (unmarshal : String → List Shard × Option String)
    (esURL : String) (timeout : Int) (measurementName : String) :
    (∀ e, (esQuery httpGet (esURL ++ "/_cat/shards?format=json&bytes=b") timeout).2 = some e →
        ∀ unmarshal' : String → List Shard × Option String,
          genShardStats httpGet unmarshal' esURL timeout measurementName = ("", some e))
      ∧ (∀ esData e,
          esQuery httpGet (esURL ++ "/_cat/shards?format=json&bytes=b") timeout = (esData, none) →
          (parseShards unmarshal esData).2 = some e →
          genShardStats httpGet unmarshal esURL timeout measurementName = ("", some e))
      ∧ (∀ esData shards,
          esQuery httpGet (esURL ++ "/_cat/shards?format=json&bytes=b") timeout = (esData, none) →
          parseShards unmarshal esData = (shards, none) →
          genShardStats httpGet unmarshal esURL timeout measurementName
            = (genInfluxDBLineProto measurementName (normalizeFields shards), none))
      ∧ ((genShardStats httpGet unmarshal esURL timeout measurementName).2 ≠ none →
          (genShardStats httpGet unmarshal esURL timeout measurementName).1 = "") := by
  refine ⟨?_, ?_, ?_, ?_⟩
  · intro e he unmarshal'
    cases hq : esQuery httpGet (esURL ++ "/_cat/shards?format=json&bytes=b") timeout with
    | mk esData err =>
      rw [hq] at he
      simp only at he
      simp [genShardStats, hq, he]
  · intro esData e hq hp
    cases hps : parseShards unmarshal esData with
    | mk shards err =>
      rw [hps] at hp
      simp only at hp
      simp [genShardStats, hq, hps, hp]
  · intro esData shards hq hp
    simp [genShardStats, hq, hp]
  · cases hq : esQuery httpGet (esURL ++ "/_cat/shards?format=json&bytes=b") timeout with
    | mk esData err =>
      cases err with
      | some e => simp [genShardStats, hq]
      | none =>
        cases hps : parseShards unmarshal esData with
        | mk shards err =>
          cases err with
          | some e => simp [genShardStats, hq, hps]
          | none => simp [genShardStats, hq, hps]

theorem genShardStats_propagation_witness :
    genShardStats (fun _ _ => (⟨0, ""⟩, "", some ["connection refused"]))
        (fun _ => ([], none)) "http://localhost:9200" 10 "elasticsearch_shards"
      = ("", some "connection refused") :=
  (genShardStats_propagation (fun _ _ => (⟨0, ""⟩, "", some ["connection refused"]))
    (fun _ => ([], none)) "http://localhost:9200" 10 "elasticsearch_shards").1
    "connection refused" (by decide) (fun _ => ([], none))

/-! ## Further properties of the encoder and the normalizer -/

/-- C18: the encoder is not injective: two distinct records, each left as it is
by normalization, have the same line, because values are inserted unescaped. -/
theorem genInfluxDBLineProto_not_injective :
    ∃ (m : String) (r1 r2 : Shard), r1 ≠ r2
      ∧ normalizeFields [r1] = [r1] ∧ normalizeFields [r2] = [r2]
      ∧ r1.State = "S" ∧ r1.Node = "x" ∧ r2.State = "S,node=x" ∧ r2.Node = ""
      ∧ genInfluxDBLineProto m [r1] = genInfluxDBLineProto m [r2] :=
  ⟨"m", ⟨"i", "0", "p", "S", "", "", "", "x"⟩, ⟨"i", "0", "p", "S,node=x", "", "", "", ""⟩,
    by decide⟩

theorem mem_normalizeFields (xs : List Shard) (r' : Shard) (h : r' ∈ normalizeFields xs) :
    ∃ r ∈ xs, r' ∈ normalizeFields [r] := by
  induction xs with
  | nil => simp [normalizeFields] at h
  | cons x xs ih =>
    rw [normalizeFields_cons, List.mem_append] at h
    rcases h with h | h
    · exact ⟨x, List.mem_cons_self x xs, h⟩
    · obtain ⟨r, hr, hr'⟩ := ih h
      exact ⟨r, List.mem_cons_of_mem x hr, hr'⟩

/-- What a single record becomes: a record of another state with the spaces of
its node removed, a relocating record with the two tokens of its node. -/
theorem mem_normalizeFields_single (r r' : Shard) (h : r' ∈ normalizeFields [r]) :
    (r.State ≠ "RELOCATING" ∧ r' = { r with Node := stringsReplace r.Node ' ' "" })
      ∨ (r.State = "RELOCATING" ∧ ∃ A B, RelocForm r.Node.data A B
          ∧ r' = { r with Node := String.mk A ++ "->" ++ String.mk B }) := by
  by_cases hs : r.State = "RELOCATING"
  · right
    refine ⟨hs, ?_⟩
    cases hm : re.FindStringSubmatch r.Node with
    | none =>
      rw [normalizeFields_unmatched r hs hm] at h
      exact absurd h (List.not_mem_nil r')
    | some m =>
      obtain ⟨A, B, hf, -⟩ := FindStringSubmatch_re_some r.Node m hm
      rw [normalizeFields_of_form r A B hs hf] at h
      exact ⟨A, B, hf, List.mem_singleton.1 h⟩
  · left
    rw [normalizeFields_other r hs] at h
    exact ⟨hs, List.mem_singleton.1 h⟩

theorem arrow_no_whitespace (A B : List Char) (hA : ∀ c ∈ A, notSpace c = true)
    (hB : ∀ c ∈ B, notSpace c = true) :
    ∀ c ∈ (String.mk A ++ "->" ++ String.mk B).data, isSpace c = false := by
  intro c hc
  simp only [String.data_append, List.mem_append] at hc
  rcases hc with (hc | hc) | hc
  · simpa [notSpace] using hA c hc
  · have hc' : c = '-' ∨ c = '>' := by simpa using hc
    rcases hc' with rfl | rfl <;> decide
  · simpa [notSpace] using hB c hc

theorem not_space_of_not_isSpace (c : Char) (h : isSpace c = false) : c ≠ ' ' := by
  rintro rfl
  exact absurd h (by decide)

/-- A text without whitespace is not matched by the pattern. -/
theorem FindStringSubmatch_re_no_whitespace (s : String)
    (h : ∀ c ∈ s.data, isSpace c = false) : re.FindStringSubmatch s = none := by
  rw [FindStringSubmatch_re_none]
  rintro ⟨A, B, W, R, w, e, -, -, -, -, -, hw, -, -⟩
  have hmem : w ∈ s.data := by
    rw [e]
    simp
  rw [h w hmem] at hw
  exact absurd hw (by simp)

theorem normalizeFields_state (xs : List Shard) (r' : Shard) (h : r' ∈ normalizeFields xs) :
    ∃ r ∈ xs, r'.State = r.State := by
  obtain ⟨r, hr, hr'⟩ := mem_normalizeFields xs r' h
  refine ⟨r, hr, ?_⟩
  rcases mem_normalizeFields_single r r' hr' with ⟨-, e⟩ | ⟨-, A, B, -, e⟩ <;> rw [e]

theorem relocating_output_node_no_whitespace (xs : List Shard) (r' : Shard)
    (h : r' ∈ normalizeFields xs) (hs : r'.State = "RELOCATING") :
    ∀ c ∈ r'.Node.data, isSpace c = false := by
  obtain ⟨r, -, hr'⟩ := mem_normalizeFields xs r' h
  rcases mem_normalizeFields_single r r' hr' with ⟨hne, e⟩ | ⟨-, A, B, hf, e⟩
  · rw [e] at hs
    exact absurd hs hne
  · obtain ⟨W, R, w, -, -, hAp, -, -, -, -, -, hBp⟩ := hf
    rw [e]
    exact arrow_no_whitespace A B hAp hBp

/-- C16: no node in the output of `normalizeFields` contains a space character,
whatever the state of the record. -/
theorem normalizeFields_no_space (xs : List Shard) :
    ∀ r ∈ normalizeFields xs, ' ' ∉ r.Node.data := by
  intro r' h
  obtain ⟨r, -, hr'⟩ := mem_normalizeFields xs r' h
  rcases mem_normalizeFields_single r r' hr' with ⟨-, e⟩ | ⟨-, A, B, hf, e⟩
  · rw [e]
    show ' ' ∉ (stringsReplace r.Node ' ' "").data
    rw [stringsReplace_space_data]
    simp
  · obtain ⟨W, R, w, -, -, hAp, -, -, -, -, -, hBp⟩ := hf
    rw [e]
    intro hmem
    exact not_space_of_not_isSpace ' ' (arrow_no_whitespace A B hAp hBp ' ' hmem) rfl

theorem normalizeFields_no_space_witness :
    ' ' ∉ ("node-a->node-b" : String).data :=
  normalizeFields_no_space
    [⟨"logs", "2", "p", "RELOCATING", "", "", "", "node-a 1.2.3.4 10.0.0.2 node-b"⟩]
    ⟨"logs", "2", "p", "RELOCATING", "", "", "", "node-a->node-b"⟩ (by decide)

/-- C15: after two passes of `normalizeFields` no record has state RELOCATING,
so a second pass changes every output that holds a relocating record. -/
theorem normalizeFields_twice (xs : List Shard) :
    (∀ r ∈ normalizeFields (normalizeFields xs), r.State ≠ "RELOCATING")
      ∧ ((∃ r ∈ normalizeFields xs, r.State = "RELOCATING") →
          normalizeFields (normalizeFields xs) ≠ normalizeFields xs) := by
  have h1 : ∀ r ∈ normalizeFields (normalizeFields xs), r.State ≠ "RELOCATING" := by
    intro r'' h hs
    obtain ⟨r', hr', hr''⟩ := mem_normalizeFields (normalizeFields xs) r'' h
    rcases mem_normalizeFields_single r' r'' hr'' with ⟨hne, e⟩ | ⟨hs', A, B, hf, -⟩
    · rw [e] at hs
      exact hne hs
    · have hnone := FindStringSubmatch_re_no_whitespace r'.Node
        (relocating_output_node_no_whitespace xs r' hr' hs')
      rw [FindStringSubmatch_re_none] at hnone
      exact hnone ⟨A, B, hf⟩
  refine ⟨h1, ?_⟩
  rintro ⟨r, hr, hs⟩ heq
  rw [← heq] at hr
  exact h1 r hr hs

theorem normalizeFields_twice_witness :
    normalizeFields (normalizeFields
        [⟨"logs", "2", "p", "RELOCATING", "", "", "", "node-a 1.2.3.4 10.0.0.2 node-b"⟩])
      ≠ normalizeFields
        [⟨"logs", "2", "p", "RELOCATING", "", "", "", "node-a 1.2.3.4 10.0.0.2 node-b"⟩] :=
  (normalizeFields_twice
    [⟨"logs", "2", "p", "RELOCATING", "", "", "", "node-a 1.2.3.4 10.0.0.2 node-b"⟩]).2
    ⟨⟨"logs", "2", "p", "RELOCATING", "", "", "", "node-a->node-b"⟩, by decide, rfl⟩

/-- Two tokens with a text `mid` between them that begins and ends with
whitespace: the relocation shape has these two tokens and needs `mid` to be at
least two characters long. -/
theorem relocForm_mid (A mid B A' B' : List Char) (hAp : ∀ c ∈ A, notSpace c = true)
    (hBp : ∀ c ∈ B, notSpace c = true)
    (hhead : ∃ v t, mid = v :: t ∧ isSpace v = true)
    (hlast : ∃ t w, mid = t ++ [w] ∧ isSpace w = true)
    (h : RelocForm (A ++ (mid ++ B)) A' B') : A' = A ∧ B' = B ∧ 2 ≤ mid.length := by
  obtain ⟨eA, eB⟩ := RelocForm.tokens _ A' B' h
  obtain ⟨v, t, emid, hv⟩ := hhead
  obtain ⟨t', w, emid', hw⟩ := hlast
  have hA' : A' = A := by
    rw [eA, emid, List.cons_append,
      takeWhile_append_stop notSpace A _ v hAp (isSpace_not_notSpace v hv)]
  have hB' : B' = B := by
    have er : (A ++ (mid ++ B)).reverse = B.reverse ++ w :: (A ++ t').reverse := by
      rw [emid']; simp
    rw [eB, er, takeWhile_append_stop notSpace B.reverse _ w
      (fun c hc => hBp c (List.mem_reverse.1 hc)) (isSpace_not_notSpace w hw)]
    simp
  subst hA' hB'
  refine ⟨rfl, rfl, ?_⟩
  obtain ⟨W, R, w', e, -, -, hW, -, -, -, -, -⟩ := h
  have e1 : mid ++ B' = W ++ (R ++ w' :: B') := List.append_cancel_left e
  have hl := congrArg List.length e1
  have hWl : 0 < W.length := List.length_pos.2 hW
  simp only [List.length_append, List.length_cons] at hl
  omega

/-- C17: a relocating record whose node is two non-empty whitespace-free tokens
separated by a single whitespace character is dropped; with two whitespace
characters between the same tokens it is retained with the tokens joined by an
arrow. -/
theorem normalizeFields_two_tokens (r : Shard) (tokenA tokenB : String) (w1 w2 : Char)
    (hState : r.State = "RELOCATING")
    (hA : tokenA ≠ "") (hAs : ∀ c ∈ tokenA.data, isSpace c = false)
    (hB : tokenB ≠ "") (hBs : ∀ c ∈ tokenB.data, isSpace c = false)
    (hw1 : isSpace w1 = true) (hw2 : isSpace w2 = true) :
    normalizeFields [{ r with Node := tokenA ++ String.mk [w1] ++ tokenB }] = []
      ∧ normalizeFields [{ r with Node := tokenA ++ String.mk [w1, w2] ++ tokenB }]
          = [{ r with Node := tokenA ++ "->" ++ tokenB }] := by
  have hA' : tokenA.data ≠ [] := fun e => hA (String.ext e)
  have hB' : tokenB.data ≠ [] := fun e => hB (String.ext e)
  have hAp : ∀ c ∈ tokenA.data, notSpace c = true := fun c hc => by simp [notSpace, hAs c hc]
  have hBp : ∀ c ∈ tokenB.data, notSpace c = true := fun c hc => by simp [notSpace, hBs c hc]
  constructor
  · refine normalizeFields_unmatched { r with Node := tokenA ++ String.mk [w1] ++ tokenB }
      hState ?_
    rw [FindStringSubmatch_re_none]
    rintro ⟨A', B', hf⟩
    have hd : (tokenA ++ String.mk [w1] ++ tokenB).data
        = tokenA.data ++ ([w1] ++ tokenB.data) := by
      simp [String.data_append]
    simp only [hd] at hf
    have h2 := (relocForm_mid tokenA.data [w1] tokenB.data A' B' hAp hBp
      ⟨w1, [], rfl, hw1⟩ ⟨[], w1, rfl, hw1⟩ hf).2.2
    simp at h2
  · have hf : RelocForm (tokenA ++ String.mk [w1, w2] ++ tokenB).data tokenA.data
        tokenB.data :=
      ⟨[w1], [], w2, by simp [String.data_append], hA', hAp, by simp,
        fun c hc => by rw [List.mem_singleton.1 hc]; exact hw1, by simp, hw2, hB', hBp⟩
    have h := normalizeFields_of_form
      { r with Node := tokenA ++ String.mk [w1, w2] ++ tokenB } tokenA.data tokenB.data
      hState hf
    simpa using h

theorem normalizeFields_two_tokens_witness :
    normalizeFields [⟨"logs", "2", "p", "RELOCATING", "", "", "", "node-a node-b"⟩] = []
      ∧ normalizeFields [⟨"logs", "2", "p", "RELOCATING", "", "", "", "node-a \tnode-b"⟩]
          = [⟨"logs", "2", "p", "RELOCATING", "", "", "", "node-a->node-b"⟩] :=
  normalizeFields_two_tokens ⟨"logs", "2", "p", "RELOCATING", "", "", "", ""⟩
    "node-a" "node-b" ' ' '\t' rfl (by decide) (by decide) (by decide) (by decide)
    (by decide) (by decide)

/-! ## The pattern and the tokenizer -/

theorem notSpace_isSpace_false (c : Char) (h : notSpace c = true) : isSpace c = false := by
  simpa [notSpace] using h

theorem fieldsGo_append_token (cur A rest : List Char) (hA : ∀ c ∈ A, notSpace c = true) :
    fieldsGo cur (A ++ rest) = fieldsGo (cur ++ A) rest := by
  induction A generalizing cur with
  | nil => simp
  | cons a A ih =>
    have ha : isSpace a = false := notSpace_isSpace_false a (hA a (List.mem_cons_self a A))
    have ih' := ih (cur ++ [a]) (fun d hd => hA d (List.mem_cons_of_mem a hd))
    have e : fieldsGo cur (a :: (A ++ rest)) = fieldsGo (cur ++ [a]) (A ++ rest) := by
      simp [fieldsGo, ha]
    rw [List.cons_append, e, ih']
    simp

theorem fields_token (A : List Char) (hne : A ≠ []) (hA : ∀ c ∈ A, notSpace c = true) :
    fields A = [A] := by
  have h := fieldsGo_append_token [] A [] hA
  simp only [List.append_nil, List.nil_append] at h
  rw [fields, h]
  simp [fieldsGo, hne]

theorem fields_token_space (A rest : List Char) (v : Char) (hne : A ≠ [])
    (hA : ∀ c ∈ A, notSpace c = true) (hv : isSpace v = true) :
    fields (A ++ v :: rest) = A :: fields rest := by
  have h := fieldsGo_append_token [] A (v :: rest) hA
  simp only [List.nil_append] at h
  rw [fields, h]
  simp [fieldsGo, hv, hne, fields]

theorem fieldsGo_append_last (cur X B : List Char) (w : Char) (hw : isSpace w = true)
    (hne : B ≠ []) (hB : ∀ c ∈ B, notSpace c = true) :
    fieldsGo cur (X ++ w :: B) = fieldsGo cur X ++ [B] := by
  have hB1 : fieldsGo [] B = [B] := fields_token B hne hB
  induction X generalizing cur with
  | nil =>
    by_cases hc : cur = []
    · simp [fieldsGo, hw, hc, hB1]
    · simp [fieldsGo, hw, hc, hB1]
  | cons x X ih =>
    by_cases hx : isSpace x = true
    · by_cases hc : cur = []
      · simp [fieldsGo, hx, hc, ih]
      · simp [fieldsGo, hx, hc, ih]
    · simp [fieldsGo, hx, ih]

/-- The tokens of a text of the relocation shape: the first token, the tokens in
between, the last token. -/
theorem fields_of_form (text A B : List Char) (h : RelocForm text A B) :
    ∃ mids, fields text = A :: (mids ++ [B]) := by
  obtain ⟨W, R, w, e, hA, hAp, hW, hWp, -, hw, hB, hBp⟩ := h
  cases W with
  | nil => exact absurd rfl hW
  | cons v W =>
    have hv : isSpace v = true := hWp v (List.mem_cons_self v W)
    refine ⟨fields (W ++ R), ?_⟩
    rw [e, List.cons_append, fields_token_space A _ v hA hAp hv]
    have e2 : W ++ (R ++ w :: B) = (W ++ R) ++ w :: B := by simp
    rw [e2, fields, fieldsGo_append_last [] (W ++ R) B w hw hB hBp]
    rfl

theorem arrowOfTokens_first_last (A B : List Char) (mids : List (List Char)) :
    arrowOfTokens (A :: (mids ++ [B])) = String.mk A ++ "->" ++ String.mk B := by
  simp [arrowOfTokens, List.getLastD]

theorem dropWhile_head_false (p : Char → Bool) (l Y : List Char) (w : Char)
    (h : l.dropWhile p = w :: Y) : p w = false := by
  induction l with
  | nil => simp at h
  | cons a l ih =>
    by_cases ha : p a = true
    · rw [List.dropWhile_cons_of_pos ha] at h
      exact ih h
    · rw [List.dropWhile_cons_of_neg ha] at h
      simp only [List.cons.injEq] at h
      rw [← h.1]
      simpa using ha

theorem isSpace_of_notSpace_false (c : Char) (h : notSpace c = false) : isSpace c = true := by
  simpa [notSpace] using h

/-- A text that begins with a non-whitespace character is a first token followed
by nothing or by a whitespace character and a rest. -/
theorem split_first_token (l : List Char) (c : Char) (hl : l.head? = some c)
    (hc : isSpace c = false) :
    ∃ A rest, l = A ++ rest ∧ A ≠ [] ∧ (∀ d ∈ A, notSpace d = true)
      ∧ (rest = [] ∨ ∃ v rest', rest = v :: rest' ∧ isSpace v = true) := by
  refine ⟨l.takeWhile notSpace, l.dropWhile notSpace,
    (List.takeWhile_append_dropWhile _ _).symm, ?_, fun d hd => List.mem_takeWhile_imp hd, ?_⟩
  · cases l with
    | nil => simp at hl
    | cons a t =>
      simp only [List.head?_cons, Option.some.injEq] at hl
      subst hl
      simp [List.takeWhile, notSpace, hc]
  · cases hX : l.dropWhile notSpace with
    | nil => exact Or.inl rfl
    | cons v Y =>
      exact Or.inr ⟨v, Y, rfl, isSpace_of_notSpace_false v (dropWhile_head_false _ _ _ _ hX)⟩

/-- A text that ends with a non-whitespace character is a last token preceded by
nothing or by a text and a whitespace character. -/
theorem split_last_token (l : List Char) (c : Char) (hl : l.getLast? = some c)
    (hc : isSpace c = false) :
    ∃ X B, l = X ++ B ∧ B ≠ [] ∧ (∀ d ∈ B, notSpace d = true)
      ∧ (X = [] ∨ ∃ X' w, X = X' ++ [w] ∧ isSpace w = true) := by
  have hr : l.reverse.head? = some c := by rw [List.head?_reverse, hl]
  obtain ⟨A, rest, e, hA, hAp, hrest⟩ := split_first_token l.reverse c hr hc
  have el : l = rest.reverse ++ A.reverse := by
    have := congrArg List.reverse e
    simpa using this
  refine ⟨rest.reverse, A.reverse, el, by simpa using hA,
    fun d hd => hAp d (List.mem_reverse.1 hd), ?_⟩
  rcases hrest with h | ⟨v, rest', h, hv⟩
  · exact Or.inl (by simp [h])
  · exact Or.inr ⟨rest'.reverse, v, by simp [h], hv⟩

theorem dropWhile_append_stop (p : Char → Bool) (A rest : List Char) (w : Char)
    (hA : ∀ c ∈ A, p c = true) (hw : p w = false) :
    (A ++ w :: rest).dropWhile p = w :: rest := by
  induction A with
  | nil => simp [List.dropWhile, hw]
  | cons a A ih =>
    have ha : p a = true := hA a (List.mem_cons_self a A)
    simp [List.dropWhile, ha, ih (fun d hd => hA d (List.mem_cons_of_mem a hd))]

theorem dropWhile_all (p : Char → Bool) (A : List Char) (hA : ∀ c ∈ A, p c = true) :
    A.dropWhile p = [] := by
  induction A with
  | nil => rfl
  | cons a A ih =>
    have ha : p a = true := hA a (List.mem_cons_self a A)
    simp [List.dropWhile, ha, ih (fun d hd => hA d (List.mem_cons_of_mem a hd))]

theorem betweenTokens_token (A : List Char) (hA : ∀ c ∈ A, notSpace c = true) :
    betweenTokens A = [] := by
  simp [betweenTokens, dropWhile_all notSpace A hA]

/-- Between a first token and a last token lies the text that separates them,
when that text begins and ends with whitespace. -/
theorem betweenTokens_mid (A mid B : List Char) (hAp : ∀ c ∈ A, notSpace c = true)
    (hBp : ∀ c ∈ B, notSpace c = true)
    (hhead : ∃ v t, mid = v :: t ∧ isSpace v = true)
    (hlast : ∃ t w, mid = t ++ [w] ∧ isSpace w = true) :
    betweenTokens (A ++ (mid ++ B)) = mid := by
  obtain ⟨v, t, emid, hv⟩ := hhead
  obtain ⟨t', w, emid', hw⟩ := hlast
  have h1 : (A ++ (mid ++ B)).dropWhile notSpace = mid ++ B := by
    rw [emid, List.cons_append,
      dropWhile_append_stop notSpace A _ v hAp (isSpace_not_notSpace v hv)]
  have h2 : (mid ++ B).reverse = B.reverse ++ w :: t'.reverse := by
    rw [emid']; simp
  rw [betweenTokens, h1, h2, dropWhile_append_stop notSpace B.reverse _ w
    (fun c hc => hBp c (List.mem_reverse.1 hc)) (isSpace_not_notSpace w hw), emid']
  simp

theorem beginsWithToken_append (A rest : List Char) (hA : A ≠ [])
    (hAp : ∀ c ∈ A, notSpace c = true) : beginsWithToken (A ++ rest) = true := by
  cases A with
  | nil => exact absurd rfl hA
  | cons a A => exact hAp a (List.mem_cons_self a A)

theorem endsWithToken_append (rest B : List Char) (hB : B ≠ [])
    (hBp : ∀ c ∈ B, notSpace c = true) : endsWithToken (rest ++ B) = true := by
  rw [endsWithToken, List.reverse_append]
  exact beginsWithToken_append B.reverse rest.reverse (by simpa using hB)
    (fun c hc => hBp c (List.mem_reverse.1 hc))

theorem beginsWithToken_head (text : List Char) (h : beginsWithToken text = true) :
    ∃ c, text.head? = some c ∧ isSpace c = false := by
  cases text with
  | nil => simp [beginsWithToken] at h
  | cons c t => exact ⟨c, rfl, notSpace_isSpace_false c h⟩

theorem endsWithToken_last (text : List Char) (h : endsWithToken text = true) :
    ∃ c, text.getLast? = some c ∧ isSpace c = false := by
  obtain ⟨c, hc, hs⟩ := beginsWithToken_head text.reverse h
  exact ⟨c, by rw [← List.head?_reverse]; exact hc, hs⟩

/-- A text that begins and ends with a token is one token, or two tokens and one
whitespace character between them, or two tokens and between them a text of two
or more characters that begins and ends with whitespace. -/
theorem token_shape (text : List Char) (hb : beginsWithToken text = true)
    (he : endsWithToken text = true) :
    (∃ A, A ≠ [] ∧ (∀ c ∈ A, notSpace c = true) ∧ text = A)
      ∨ (∃ A w B, A ≠ [] ∧ (∀ c ∈ A, notSpace c = true) ∧ B ≠ []
          ∧ (∀ c ∈ B, notSpace c = true) ∧ isSpace w = true ∧ text = A ++ w :: B)
      ∨ (∃ A v Y w B, A ≠ [] ∧ (∀ c ∈ A, notSpace c = true) ∧ B ≠ []
          ∧ (∀ c ∈ B, notSpace c = true) ∧ isSpace v = true ∧ isSpace w = true
          ∧ text = A ++ v :: (Y ++ w :: B)) := by
  obtain ⟨c0, hc0, hs0⟩ := beginsWithToken_head text hb
  obtain ⟨c1, hc1, hs1⟩ := endsWithToken_last text he
  obtain ⟨A, rest, e, hA, hAp, hrest⟩ := split_first_token text c0 hc0 hs0
  rcases hrest with hr | ⟨v, rest', hr, hv⟩
  · left
    exact ⟨A, hA, hAp, by rw [e, hr, List.append_nil]⟩
  · right
    rw [hr] at e
    have hne : rest' ≠ [] := by
      rintro rfl
      have hl : text.getLast? = some v := by
        rw [e]
        simp
      rw [hl] at hc1
      simp only [Option.some.injEq] at hc1
      rw [hc1, hs1] at hv
      exact absurd hv (by simp)
    have hl : text.getLast? = rest'.getLast? := by
      have e2 : A ++ v :: rest' = (A ++ [v]) ++ rest' := by simp
      rw [e, e2, List.getLast?_append_of_ne_nil _ hne]
    obtain ⟨X, B, e', hB, hBp, hX⟩ := split_last_token rest' c1 (hl ▸ hc1) hs1
    rcases hX with hX | ⟨X', w, hX, hw⟩
    · left
      refine ⟨A, v, B, hA, hAp, hB, hBp, hv, ?_⟩
      rw [e, e', hX, List.nil_append]
    · right
      refine ⟨A, v, X', w, B, hA, hAp, hB, hBp, hv, hw, ?_⟩
      rw [e, e', hX]
      simp

theorem fieldsGo_eq_nil (cur Y : List Char) (h : fieldsGo cur Y = []) :
    cur = [] ∧ ∀ c ∈ Y, isSpace c = true := by
  induction Y generalizing cur with
  | nil =>
    by_cases hc : cur = []
    · exact ⟨hc, by simp⟩
    · simp [fieldsGo, hc] at h
  | cons y Y ih =>
    by_cases hy : isSpace y = true
    · by_cases hc : cur = []
      · simp only [fieldsGo, hy, hc, if_true] at h
        refine ⟨hc, ?_⟩
        intro c hmem
        rcases List.mem_cons.1 hmem with rfl | hmem
        · exact hy
        · exact (ih [] h).2 c hmem
      · simp [fieldsGo, hy, hc] at h
    · simp only [fieldsGo, hy, Bool.false_eq_true, if_false] at h
      have := (ih (cur ++ [y]) h).1
      simp at this

theorem fields_two (A B : List Char) (w : Char) (hA : A ≠ [])
    (hAp : ∀ c ∈ A, notSpace c = true) (hB : B ≠ []) (hBp : ∀ c ∈ B, notSpace c = true)
    (hw : isSpace w = true) : fields (A ++ w :: B) = [A, B] := by
  rw [fields_token_space A B w hA hAp hw, fields_token B hB hBp]

theorem fields_three (A Y B : List Char) (v w : Char) (hA : A ≠ [])
    (hAp : ∀ c ∈ A, notSpace c = true) (hB : B ≠ []) (hBp : ∀ c ∈ B, notSpace c = true)
    (hv : isSpace v = true) (hw : isSpace w = true) :
    fields (A ++ v :: (Y ++ w :: B)) = A :: (fields Y ++ [B]) := by
  rw [fields_token_space A _ v hA hAp hv, fields, fieldsGo_append_last [] Y B w hw hB hBp]
  rfl

theorem betweenTokens_two (A B : List Char) (w : Char) (hAp : ∀ c ∈ A, notSpace c = true)
    (hBp : ∀ c ∈ B, notSpace c = true) (hw : isSpace w = true) :
    betweenTokens (A ++ w :: B) = [w] :=
  betweenTokens_mid A [w] B hAp hBp ⟨w, [], rfl, hw⟩ ⟨[], w, rfl, hw⟩

theorem betweenTokens_three (A Y B : List Char) (v w : Char)
    (hAp : ∀ c ∈ A, notSpace c = true) (hBp : ∀ c ∈ B, notSpace c = true)
    (hv : isSpace v = true) (hw : isSpace w = true) :
    betweenTokens (A ++ v :: (Y ++ w :: B)) = v :: (Y ++ [w]) := by
  have h := betweenTokens_mid A (v :: (Y ++ [w])) B hAp hBp ⟨v, Y ++ [w], rfl, hv⟩
    ⟨v :: Y, w, rfl, hw⟩
  simpa using h

/-- Two tokens and between them whitespace, a text `Y` and whitespace: the text
has the relocation shape when `Y` has no line feed after its leading whitespace. -/
theorem relocForm_of_shape (A Y B : List Char) (v w : Char) (hA : A ≠ [])
    (hAp : ∀ c ∈ A, notSpace c = true) (hB : B ≠ []) (hBp : ∀ c ∈ B, notSpace c = true)
    (hv : isSpace v = true) (hw : isSpace w = true)
    (hNL : '\n' ∉ Y.dropWhile isSpace) :
    RelocForm (A ++ v :: (Y ++ w :: B)) A B := by
  refine ⟨v :: Y.takeWhile isSpace, Y.dropWhile isSpace, w, ?_, hA, hAp, by simp, ?_, ?_,
    hw, hB, hBp⟩
  · have e : Y.takeWhile isSpace ++ Y.dropWhile isSpace = Y := List.takeWhile_append_dropWhile _ _
    simp only [List.cons_append, ← List.append_assoc, e]
  · intro c hc
    rcases List.mem_cons.1 hc with rfl | hc
    · exact hv
    · exact List.mem_takeWhile_imp hc
  · intro c hc
    have hne : c ≠ '\n' := by
      rintro rfl
      exact hNL hc
    simp [anyCharNotNL, hne]

/-- The texts of the relocation shape, described by their tokens: the text
begins and ends with a token, the text between the first and the last token has
two or more characters and, without its leading whitespace and its last
character, no line feed. -/
theorem relocForm_iff (text : List Char) :
    (∃ A B, RelocForm text A B)
      ↔ beginsWithToken text = true ∧ endsWithToken text = true
          ∧ 2 ≤ (betweenTokens text).length
          ∧ '\n' ∉ ((betweenTokens text).dropLast).dropWhile isSpace := by
  constructor
  · rintro ⟨A, B, W, R, w, e, hA, hAp, hW, hWp, hRp, hw, hB, hBp⟩
    have e1 : text = A ++ ((W ++ (R ++ [w])) ++ B) := by
      rw [e]; simp
    have e2 : text = (A ++ (W ++ (R ++ [w]))) ++ B := by
      rw [e]; simp
    have hmid : betweenTokens text = (W ++ R) ++ [w] := by
      cases W with
      | nil => exact absurd rfl hW
      | cons v W' =>
        have hm := betweenTokens_mid A ((v :: W') ++ (R ++ [w])) B hAp hBp
          ⟨v, W' ++ (R ++ [w]), rfl, hWp v (List.mem_cons_self v W')⟩
          ⟨(v :: W') ++ R, w, by simp, hw⟩
        rw [e1, hm]
        simp
    refine ⟨?_, ?_, ?_, ?_⟩
    · rw [e]
      exact beginsWithToken_append A _ hA hAp
    · rw [e2]
      exact endsWithToken_append _ B hB hBp
    · have hWl : 0 < W.length := List.length_pos.2 hW
      rw [hmid]
      simp only [List.length_append, List.length_cons, List.length_nil]
      omega
    · rw [hmid, List.dropLast_concat, dropWhile_append_all isSpace W R hWp]
      intro hmem
      have := hRp '\n' (mem_of_mem_dropWhile isSpace '\n' R hmem)
      exact absurd this (by decide)
  · rintro ⟨hb, he, h2, hNL⟩
    rcases token_shape text hb he with ⟨A, hA, hAp, e⟩
      | ⟨A, w, B, hA, hAp, hB, hBp, hw, e⟩
      | ⟨A, v, Y, w, B, hA, hAp, hB, hBp, hv, hw, e⟩
    · rw [e, betweenTokens_token A hAp] at h2
      simp at h2
    · rw [e, betweenTokens_two A B w hAp hBp hw] at h2
      simp at h2
    · refine ⟨A, B, ?_⟩
      rw [e]
      apply relocForm_of_shape A Y B v w hA hAp hB hBp hv hw
      rw [e, betweenTokens_three A Y B v w hAp hBp hv hw] at hNL
      have e3 : v :: (Y ++ [w]) = (v :: Y) ++ [w] := by simp
      rw [e3, List.dropLast_concat, List.dropWhile_cons_of_pos hv] at hNL
      exact hNL

/-- With exactly two tokens the text between them is whitespace only, so the
line feed condition holds. -/
theorem two_tokens_no_line_feed (text : List Char) (h2 : (fields text).length = 2)
    (hb : beginsWithToken text = true) (he : endsWithToken text = true) :
    '\n' ∉ ((betweenTokens text).dropLast).dropWhile isSpace := by
  rcases token_shape text hb he with ⟨A, hA, hAp, e⟩
    | ⟨A, w, B, hA, hAp, hB, hBp, hw, e⟩
    | ⟨A, v, Y, w, B, hA, hAp, hB, hBp, hv, hw, e⟩
  · rw [e, betweenTokens_token A hAp]
    simp
  · rw [e, betweenTokens_two A B w hAp hBp hw]
    simp
  · rw [e, fields_three A Y B v w hA hAp hB hBp hv hw] at h2
    have hY : fields Y = [] := by
      cases hf : fields Y with
      | nil => rfl
      | cons a l =>
        rw [hf] at h2
        simp at h2
    have hall : ∀ c ∈ v :: Y, isSpace c = true := by
      intro c hc
      rcases List.mem_cons.1 hc with rfl | hc
      · exact hv
      · exact (fieldsGo_eq_nil [] Y hY).2 c hc
    have e3 : v :: (Y ++ [w]) = (v :: Y) ++ [w] := by simp
    rw [e, betweenTokens_three A Y B v w hAp hBp hv hw, e3, List.dropLast_concat,
      dropWhile_all isSpace (v :: Y) hall]
    simp

/-- With three or more tokens the text between the first and the last token has
two or more characters. -/
theorem three_tokens_between (text : List Char) (h3 : 3 ≤ (fields text).length)
    (hb : beginsWithToken text = true) (he : endsWithToken text = true) :
    2 ≤ (betweenTokens text).length := by
  rcases token_shape text hb he with ⟨A, hA, hAp, e⟩
    | ⟨A, w, B, hA, hAp, hB, hBp, hw, e⟩
    | ⟨A, v, Y, w, B, hA, hAp, hB, hBp, hv, hw, e⟩
  · rw [e, fields_token A hA hAp] at h3
    simp at h3
  · rw [e, fields_two A B w hA hAp hB hBp hw] at h3
    simp at h3
  · rw [e, betweenTokens_three A Y B v w hAp hBp hv hw]
    simp

/-- A relocating record is retained exactly when its node has the relocation shape. -/
theorem retained_iff_form (r : Shard) (hState : r.State = "RELOCATING") :
    normalizeFields [r] ≠ [] ↔ ∃ A B, RelocForm r.Node.data A B := by
  constructor
  · intro hne
    by_contra hno
    exact hne (normalizeFields_unmatched r hState ((FindStringSubmatch_re_none r.Node).2 hno))
  · rintro ⟨A, B, hf⟩
    rw [normalizeFields_of_form r A B hState hf]
    simp

/-- C14, as amended: for a relocating record the pattern either drops the record
or gives it the tokenizer's node, first token, arrow, last token. The record is
retained exactly when the node begins and ends with a token, the text between
its first and its last token has two or more characters and that text, without
its leading whitespace and its last character, has no line feed. So a node of
fewer than two tokens is dropped, a node of two tokens is retained exactly when
it begins and ends with a token and two or more characters separate them, and a
node of three or more tokens exactly when it begins and ends with a token and
the line feed condition holds. The pattern and the tokenizer agree on a record
exactly when it is retained if and only if its node has three or more tokens. -/
theorem normalizeFields_tokenizer (r : Shard) (hState : r.State = "RELOCATING") :
    (normalizeFields [r] = []
        ∨ normalizeFields [r] = [{ r with Node := arrowOfTokens (fields r.Node.data) }])
      ∧ (normalizeFields [r] ≠ [] ↔
          beginsWithToken r.Node.data = true ∧ endsWithToken r.Node.data = true
            ∧ 2 ≤ (betweenTokens r.Node.data).length
            ∧ '\n' ∉ ((betweenTokens r.Node.data).dropLast).dropWhile isSpace)
      ∧ ((fields r.Node.data).length < 2 → normalizeFields [r] = [])
      ∧ ((fields r.Node.data).length = 2 →
          (normalizeFields [r] ≠ [] ↔
            beginsWithToken r.Node.data = true ∧ endsWithToken r.Node.data = true
              ∧ 2 ≤ (betweenTokens r.Node.data).length))
      ∧ (3 ≤ (fields r.Node.data).length →
          (normalizeFields [r] ≠ [] ↔
            beginsWithToken r.Node.data = true ∧ endsWithToken r.Node.data = true
              ∧ '\n' ∉ ((betweenTokens r.Node.data).dropLast).dropWhile isSpace))
      ∧ (normalizeFields [r] = normalizeRelocatingByTokens r ↔
          (normalizeFields [r] ≠ [] ↔ 3 ≤ (fields r.Node.data).length)) := by
  have hform : ∀ A B, RelocForm r.Node.data A B →
      2 ≤ (fields r.Node.data).length
        ∧ normalizeFields [r] = [{ r with Node := arrowOfTokens (fields r.Node.data) }] := by
    intro A B hf
    obtain ⟨mids, hm⟩ := fields_of_form r.Node.data A B hf
    rw [hm, arrowOfTokens_first_last, normalizeFields_of_form r A B hState hf]
    exact ⟨by simp, rfl⟩
  have hret := retained_iff_form r hState
  have hexact := hret.trans (relocForm_iff r.Node.data)
  have hcases : normalizeFields [r] = []
      ∨ normalizeFields [r] = [{ r with Node := arrowOfTokens (fields r.Node.data) }] := by
    by_cases hne : normalizeFields [r] = []
    · exact Or.inl hne
    · obtain ⟨A, B, hf⟩ := hret.1 hne
      exact Or.inr (hform A B hf).2
  refine ⟨hcases, hexact, ?_, ?_, ?_, ?_⟩
  · intro hlt
    by_contra hne
    obtain ⟨A, B, hf⟩ := hret.1 hne
    have := (hform A B hf).1
    omega
  · intro h2
    rw [hexact]
    constructor
    · rintro ⟨hb, he, hl, -⟩
      exact ⟨hb, he, hl⟩
    · rintro ⟨hb, he, hl⟩
      exact ⟨hb, he, hl, two_tokens_no_line_feed r.Node.data h2 hb he⟩
  · intro h3
    rw [hexact]
    constructor
    · rintro ⟨hb, he, -, hn⟩
      exact ⟨hb, he, hn⟩
    · rintro ⟨hb, he, hn⟩
      exact ⟨hb, he, three_tokens_between r.Node.data h3 hb he, hn⟩
  · by_cases h3 : 3 ≤ (fields r.Node.data).length
    · have ht : normalizeRelocatingByTokens r
          = [{ r with Node := arrowOfTokens (fields r.Node.data) }] := by
        simp [normalizeRelocatingByTokens, tokenizerRelocation, h3]
      rcases hcases with h | h
      · rw [h, ht]
        simp [h3]
      · rw [h, ht]
        simp [h3]
    · have ht : normalizeRelocatingByTokens r = [] := by
        simp [normalizeRelocatingByTokens, tokenizerRelocation, h3]
      rcases hcases with h | h
      · rw [h, ht]
        simp [h3]
      · rw [h, ht]
        simp [h3]

theorem normalizeFields_tokenizer_witness :
    normalizeFields
        [⟨"logs", "2", "p", "RELOCATING", "", "", "", "node-a 1.2.3.4 10.0.0.2 node-b"⟩]
      = normalizeRelocatingByTokens
        ⟨"logs", "2", "p", "RELOCATING", "", "", "", "node-a 1.2.3.4 10.0.0.2 node-b"⟩ :=
  (normalizeFields_tokenizer
    ⟨"logs", "2", "p", "RELOCATING", "", "", "", "node-a 1.2.3.4 10.0.0.2 node-b"⟩
    rfl).2.2.2.2.2.2 ⟨fun _ => by decide, fun _ => by decide⟩

/-- C14, as stated, fails in both directions: two tokens separated by two spaces
are retained by the pattern and rejected by the tokenizer; three tokens after a
leading space, and four tokens with a line feed inside the second, are dropped
by the pattern and accepted by the tokenizer. -/
theorem normalizeFields_tokenizer_counterexample :
    (normalizeFields [⟨"logs", "2", "p", "RELOCATING", "", "", "", "a  b"⟩]
        = [⟨"logs", "2", "p", "RELOCATING", "", "", "", "a->b"⟩]
      ∧ (fields ("a  b" : String).data).length = 2
      ∧ tokenizerRelocation "a  b" = none)
    ∧ (normalizeFields [⟨"logs", "2", "p", "RELOCATING", "", "", "", " a b c"⟩] = []
      ∧ (fields (" a b c" : String).data).length = 3
      ∧ tokenizerRelocation " a b c" = some "a->c")
    ∧ (normalizeFields [⟨"logs", "2", "p", "RELOCATING", "", "", "", "a x\ny b"⟩] = []
      ∧ (fields ("a x\ny b" : String).data).length = 4
      ∧ tokenizerRelocation "a x\ny b" = some "a->b") := by
  decide

end EsShardStats
